import Mathlib
/-!
Verification development for the GENexplore cluster global-minimum search engine.

The Rust source is shallowly embedded: `f64` arithmetic is idealised as exact
rational arithmetic (`ℚ`); every finite `f64` value is a rational, and none of
the verified claims depend on rounding of the binary format.  Random draws made
by the code (`rng.gen_range`, `shuffle`, sampled rotation matrices, Metropolis
coin flips, evaluator responses) are passed in as explicit oracle parameters,
so that theorems quantify over every possible draw.  Sampled rotations built by
`nalgebra::Rotation3::from_axis_angle` and the per-atom twist angles are
represented by the resulting matrix entries (respectively the resulting
sine/cosine pair), because the trigonometric functions themselves are not
rational; theorems that need orthogonality state it as a hypothesis, which the
actual sampled rotations satisfy.

Fields of the Rust structs that no embedded code path reads (`Cluster.id`,
`Cluster.origin`, `Atom.velocity`, `Atom.force`, `Atom.is_fixed`,
`Cluster.gradient_norm`, `Cluster.pmoi`, species symbols/masses/charges other
than the covalent radius) are omitted from the embedding.
-/
/-- 3-vector over ℚ, mirroring `nalgebra::Point3<f64>` / `Vector3<f64>`. -/
structure Vec3 where
  x : ℚ
  y : ℚ
  z : ℚ
deriving DecidableEq
def Vec3.add (a b : Vec3) : Vec3 := ⟨a.x + b.x, a.y + b.y, a.z + b.z⟩
def Vec3.sub (a b : Vec3) : Vec3 := ⟨a.x - b.x, a.y - b.y, a.z - b.z⟩
def Vec3.smul (q : ℚ) (a : Vec3) : Vec3 := ⟨q * a.x, q * a.y, q * a.z⟩
def Vec3.zero : Vec3 := ⟨0, 0, 0⟩
/-- `norm_squared` of nalgebra. -/
def Vec3.normSq (a : Vec3) : ℚ := a.x * a.x + a.y * a.y + a.z * a.z
/-- 3×3 matrix over ℚ, mirroring `nalgebra::Matrix3<f64>`.
Entry `aij` is row `i`, column `j`. -/
structure Mat3 where
  a00 : ℚ
  a01 : ℚ
  a02 : ℚ
  a10 : ℚ
  a11 : ℚ
  a12 : ℚ
  a20 : ℚ
  a21 : ℚ
  a22 : ℚ
deriving DecidableEq
def Mat3.mul (A B : Mat3) : Mat3 :=
  ⟨A.a00*B.a00 + A.a01*B.a10 + A.a02*B.a20, A.a00*B.a01 + A.a01*B.a11 + A.a02*B.a21, A.a00*B.a02 + A.a01*B.a12 + A.a02*B.a22,
   A.a10*B.a00 + A.a11*B.a10 + A.a12*B.a20, A.a10*B.a01 + A.a11*B.a11 + A.a12*B.a21, A.a10*B.a02 + A.a11*B.a12 + A.a12*B.a22,
   A.a20*B.a00 + A.a21*B.a10 + A.a22*B.a20, A.a20*B.a01 + A.a21*B.a11 + A.a22*B.a21, A.a20*B.a02 + A.a21*B.a12 + A.a22*B.a22⟩
/-- Matrix–vector product. -/
def Mat3.mv (A : Mat3) (v : Vec3) : Vec3 :=
  ⟨A.a00 * v.x + A.a01 * v.y + A.a02 * v.z,
   A.a10 * v.x + A.a11 * v.y + A.a12 * v.z,
   A.a20 * v.x + A.a21 * v.y + A.a22 * v.z⟩
def Mat3.transposeM (A : Mat3) : Mat3 :=
  ⟨A.a00, A.a10, A.a20, A.a01, A.a11, A.a21, A.a02, A.a12, A.a22⟩
def Mat3.idM : Mat3 := ⟨1, 0, 0, 0, 1, 0, 0, 0, 1⟩
def Mat3.traceM (A : Mat3) : ℚ := A.a00 + A.a11 + A.a22
def Mat3.det (A : Mat3) : ℚ :=
  A.a00 * (A.a11 * A.a22 - A.a12 * A.a21)
  - A.a01 * (A.a10 * A.a22 - A.a12 * A.a20)
  + A.a02 * (A.a10 * A.a21 - A.a11 * A.a20)
/-- Classical adjugate, used only to derive `mul_one_comm`. -/
def Mat3.adj (A : Mat3) : Mat3 :=
  ⟨A.a11*A.a22 - A.a12*A.a21, -(A.a01*A.a22 - A.a02*A.a21), A.a01*A.a12 - A.a02*A.a11,
   -(A.a10*A.a22 - A.a12*A.a20), A.a00*A.a22 - A.a02*A.a20, -(A.a00*A.a12 - A.a02*A.a10),
   A.a10*A.a21 - A.a11*A.a20, -(A.a00*A.a21 - A.a01*A.a20), A.a00*A.a11 - A.a01*A.a10⟩
/-- `f64::round` rounds to nearest with ties away from zero;
Mathlib's `round` breaks ties upward, so the negative branch is mirrored. -/
def rustRound (q : ℚ) : ℤ := if 0 ≤ q then round q else -(round (-q))
/-! ## Domain model (`src/core/domain.rs`, `src/core/chemistry.rs`) -/
/-- Chemical species; only the covalent radius is read by the embedded code. -/
structure Species where
  radius_covalent : ℚ
deriving DecidableEq
/-- Flattened collision-threshold matrix (`InteractionGrid`), row-major
`i * num_species + j`. -/
structure InteractionGrid where
  num_species : ℕ
  collision_matrix_sq : List ℚ
deriving DecidableEq
/-- `InteractionGrid::new`: entry `(i, j)` is `((r_i + r_j) * covalent_scale)^2`. -/
def InteractionGrid.new (species : List Species) (covalent_scale : ℚ) : InteractionGrid :=
  let n := species.length
  { num_species := n
    collision_matrix_sq := (List.range (n * n)).map (fun k =>
      let i := k / n
      let j := k % n
      let r_i := ((species.getD i ⟨0⟩).radius_covalent)
      let r_j := ((species.getD j ⟨0⟩).radius_covalent)
      let dist := r_i + r_j
      let threshold := dist * covalent_scale
      threshold * threshold) }
/-- `InteractionGrid::get_collision_sq` (out-of-range reads, impossible for
valid ids, are modelled as 0). -/
def InteractionGrid.get_collision_sq (g : InteractionGrid) (id_a id_b : ℕ) : ℚ :=
  g.collision_matrix_sq.getD (id_a * g.num_species + id_b) 0
/-- A single atom: species index and position. -/
structure Atom where
  element_id : ℕ
  position : Vec3
deriving DecidableEq
/-- Periodic boundary conditions: cell matrix (columns are a, b, c) with its
precomputed inverse, as stored by `Lattice::new`. -/
structure LatticeQ where
  vectors : Mat3
  inverse : Mat3
deriving DecidableEq
/-- `Lattice::new` only constructs a lattice whose `inverse` field really is
the two-sided inverse of `vectors` (`try_inverse`); this predicate captures
that construction invariant. -/
def LatticeQ.WellFormed (l : LatticeQ) : Prop :=
  l.inverse.mul l.vectors = Mat3.idM
def LatticeQ.to_fractional (l : LatticeQ) (p : Vec3) : Vec3 := l.inverse.mv p
def LatticeQ.to_cartesian (l : LatticeQ) (p : Vec3) : Vec3 := l.vectors.mv p
inductive ClusterStatus where
  | Born
  | Valid
  | Evaluated
  | Discarded
  | Elite
deriving DecidableEq
/-- The core entity (`Cluster`); see the header for the omitted fields. -/
structure Cluster where
  generation : ℕ
  atoms : List Atom
  lattice : Option LatticeQ
  energy : Option ℚ
  hash_key : Option String
  status : ClusterStatus
deriving DecidableEq
/-- `Cluster::new`: a blank cluster with `status = Born`. -/
def Cluster.newC : Cluster :=
  { generation := 0
    atoms := []
    lattice := none
    energy := none
    hash_key := none
    status := .Born }
/-- Number of atoms of species `i` (`atoms.iter().filter(|a| a.element_id == i).count()`). -/
def countId (atoms : List Atom) (i : ℕ) : ℕ :=
  atoms.countP (fun a => a.element_id == i)
/-! ## Spatial kernel (`src/core/spatial.rs`) -/
/-- `distance_sq`: squared Euclidean distance, or the minimum-image variant
when a lattice is present (fractional delta, subtract the rounded components,
convert back). -/
def distance_sq (p1 p2 : Vec3) (lattice : Option LatticeQ) : ℚ :=
  match lattice with
  | some lat =>
    let d_cart := p2.sub p1
    let d_frac := lat.inverse.mv d_cart
    let d_wrapped : Vec3 :=
      ⟨d_frac.x - (rustRound d_frac.x : ℚ),
       d_frac.y - (rustRound d_frac.y : ℚ),
       d_frac.z - (rustRound d_frac.z : ℚ)⟩
    let d_mic := lat.vectors.mv d_wrapped
    d_mic.normSq
  | none => (p2.sub p1).normSq
/-- `check_overlap`: true iff no pair of atoms is closer (squared) than the
grid threshold for the pair. The source iterates over `i < j`. -/
def check_overlap (cluster : Cluster) (grid : InteractionGrid) : Bool :=
  let atoms := cluster.atoms
  let n := atoms.length
  let lattice := cluster.lattice
  (List.range n).all (fun i =>
    (List.range n).all (fun j =>
      if i < j then
        let a_i := atoms.getD i ⟨0, Vec3.zero⟩
        let a_j := atoms.getD j ⟨0, Vec3.zero⟩
        let threshold_sq := grid.get_collision_sq a_i.element_id a_j.element_id
        let dist_sq := distance_sq a_i.position a_j.position lattice
        decide (threshold_sq ≤ dist_sq)
      else
        true))
/-- The 0-D branch of `wrap_or_center` (also re-implemented inline in
`Cluster::new_random` and `apply_random_rotation`): translate so that the
geometric centre is at the origin; empty lists are left untouched. -/
def sumPos (atoms : List Atom) : Vec3 :=
  atoms.foldl (fun acc a => acc.add a.position) Vec3.zero

def centerAtoms (atoms : List Atom) : List Atom :=
  if atoms.isEmpty then atoms
  else
    let n : ℚ := atoms.length
    let center := Vec3.smul (1 / n) (sumPos atoms)
    atoms.map (fun a => { a with position := a.position.sub center })
/-- `x.rem_euclid(1.0)` on exact reals, i.e. `x - ⌊x⌋ ∈ [0, 1)`. -/
def remEuclidOne (x : ℚ) : ℚ := Int.fract x
/-- The per-atom body of the lattice branch of `wrap_or_center`: reduce the
fractional position to `[0,1)` and convert back. -/
def wrapAtom (lat : LatticeQ) (atom : Atom) : Atom :=
  let frac := lat.to_fractional atom.position
  let frac' : Vec3 := ⟨remEuclidOne frac.x, remEuclidOne frac.y, remEuclidOne frac.z⟩
  { atom with position := lat.to_cartesian frac' }

/-- `wrap_or_center`: wrap every atom into the `[0,1)` fractional box when a
lattice is present, else centre the geometric centre at the origin. -/
def wrap_or_center (cluster : Cluster) : Cluster :=
  match cluster.lattice with
  | some lat => { cluster with atoms := cluster.atoms.map (wrapAtom lat) }
  | none => { cluster with atoms := centerAtoms cluster.atoms }


/-! ## Random generator (`Cluster::new_random`, `src/core/domain.rs`) -/

/-- Oracle for the random draws of `Cluster::new_random`: the shuffle applied
to the species multiset and, for placement order index `i`, the stream of
candidate positions (`rng.gen_range(-box_size..box_size)` per coordinate). -/
structure RandomDraws where
  shuffle : List ℕ → List ℕ
  candPos : ℕ → ℕ → Vec3

/-- The exact multiset of element ids required by an `atom_counts` vector:
`count` copies of each species index `id`, in index order. -/
def buildMultiset (atom_counts : List ℕ) : List ℕ :=
  (atom_counts.enum.map (fun p => List.replicate p.2 p.1)).flatten

/-- Does `pos` clash (simple Euclidean check, deliberately ignoring any
lattice: "0D generation" policy) with an already placed atom? -/
def clashWith (grid : InteractionGrid) (placed : List Atom) (elem_id : ℕ) (pos : Vec3) : Bool :=
  placed.any (fun existing =>
    let limit_sq := grid.get_collision_sq elem_id existing.element_id
    let dist_sq := (pos.sub existing.position).normSq
    decide (dist_sq < limit_sq))

/-- Try up to 100 candidate positions, returning the first non-clashing one. -/
def tryPlace (grid : InteractionGrid) (placed : List Atom) (elem_id : ℕ)
    (cand : ℕ → Vec3) : Option Vec3 :=
  (List.range 100).findSome? (fun attempt =>
    let pos := cand attempt
    if clashWith grid placed elem_id pos then none else some pos)

/-- Random sequential adsorption: place each element id in turn, appending to
the accumulator; fail the whole cluster as soon as one placement fails. -/
def placeGo (grid : InteractionGrid) (candPos : ℕ → ℕ → Vec3) :
    List ℕ → ℕ → List Atom → Option (List Atom)
  | [], _, acc => some acc
  | elem_id :: rest, i, acc =>
    match tryPlace grid acc elem_id (candPos i) with
    | none => none
    | some pos => placeGo grid candPos rest (i + 1) (acc ++ [⟨elem_id, pos⟩])

/-- `Cluster::new_random`. `box_size` only constrains which candidate
positions the rng can produce; the embedded claims hold for every candidate
stream, so the parameter is kept for signature fidelity but unread. -/
def Cluster.new_random (atom_counts : List ℕ) (box_size : ℚ) (grid : InteractionGrid)
    (d : RandomDraws) : Option Cluster :=
  let _ := box_size
  let elements_to_place := d.shuffle (buildMultiset atom_counts)
  match placeGo grid d.candPos elements_to_place 0 [] with
  | none => none
  | some atoms => some { Cluster.newC with atoms := centerAtoms atoms }

/-! ## Operator kernel (`src/engine/operators.rs`) -/

/-- Oracle for the random draws of one `Mutator::apply` call.  The sampled
axis–angle rotation is represented by its matrix; the per-atom twist angle
`θ = z * 2 * mag * (u - 0.5)` is represented by the pair `(sin θ, cos θ)`,
since sine and cosine of a rational are not rational. -/
structure MutDraws where
  breath : ℚ
  rotM : Mat3
  twistSC : ℕ → ℚ × ℚ
  rattle : ℕ → Vec3
  swaps : List (ℕ × ℕ)
  transl : Vec3

/-- The composable mutation builder (`Mutator`). -/
structure Mutator where
  rotation_intensity : Option ℚ
  translation_intensity : Option ℚ
  rattle_intensity : Option ℚ
  twist_intensity : Option ℚ
  breathing_intensity : Option ℚ
  swap_count : Option ℕ

def Mutator.newM : Mutator := ⟨none, none, none, none, none, none⟩

def Mutator.rotate (m : Mutator) (max_angle : ℚ) : Mutator :=
  { m with rotation_intensity := some max_angle }

def Mutator.translate (m : Mutator) (max_dist : ℚ) : Mutator :=
  { m with translation_intensity := some max_dist }

def Mutator.rattleI (m : Mutator) (max_dist : ℚ) : Mutator :=
  { m with rattle_intensity := some max_dist }

def Mutator.twist (m : Mutator) (factor : ℚ) : Mutator :=
  { m with twist_intensity := some factor }

def Mutator.breathing (m : Mutator) (intensity : ℚ) : Mutator :=
  { m with breathing_intensity := some intensity }

def Mutator.swap (m : Mutator) (count : ℕ) : Mutator :=
  { m with swap_count := some count }

/-- One position swap of the swap transform (species stay, positions swap).
The source draws `i, j < n`; out-of-range indices cannot occur there, and the
defensive arm leaves the list unchanged. -/
def swapPositions (atoms : List Atom) (i j : ℕ) : List Atom :=
  if i ≠ j then
    match atoms[i]?, atoms[j]? with
    | some ai, some aj =>
      (atoms.set i { ai with position := aj.position }).set j { aj with position := ai.position }
    | _, _ => atoms
  else atoms

/-- `Mutator::apply`: wrap/centre, then the six optional transforms in source
order, then wrap/centre again. -/
def Mutator.apply (m : Mutator) (cluster : Cluster) (d : MutDraws) : Cluster :=
  let c := wrap_or_center cluster
  let c := match m.breathing_intensity with
    | some _ =>
      let scale := 1 + d.breath
      { c with atoms := c.atoms.map (fun a => { a with position := Vec3.smul scale a.position }) }
    | none => c
  let c := match m.rotation_intensity with
    | some _ => { c with atoms := c.atoms.map (fun a => { a with position := d.rotM.mv a.position }) }
    | none => c
  let c := match m.twist_intensity with
    | some _ =>
      { c with atoms := c.atoms.mapIdx (fun i a =>
          let sc := d.twistSC i
          { a with position := ⟨a.position.x * sc.2 - a.position.y * sc.1,
                                a.position.x * sc.1 + a.position.y * sc.2,
                                a.position.z⟩ }) }
    | none => c
  let c := match m.rattle_intensity with
    | some _ =>
      { c with atoms := c.atoms.mapIdx (fun i a => { a with position := a.position.add (d.rattle i) }) }
    | none => c
  let c := match m.swap_count with
    | some count =>
      if 2 ≤ c.atoms.length then
        { c with atoms := (d.swaps.take count).foldl (fun atoms ij => swapPositions atoms ij.1 ij.2) c.atoms }
      else c
    | none => c
  let c := match m.translation_intensity with
    | some _ => { c with atoms := c.atoms.map (fun a => { a with position := a.position.add d.transl }) }
    | none => c
  wrap_or_center c

/-- Oracle for the random draws of one `crossover_cut_splice` call: the two
sampled rotations, the cut point (`gen_range(1..n)`), and the two shuffles. -/
structure CrossDraws where
  rot1 : Mat3
  rot2 : Mat3
  cut : ℕ
  defShuffle : List ℕ → List ℕ
  idxShuffle : ℕ → List ℕ → List ℕ

/-- `apply_random_rotation`: centre the atoms at their geometric centre, then
rotate all positions by the sampled rotation. -/
def apply_random_rotation (R : Mat3) (atoms : List Atom) : List Atom :=
  if atoms.isEmpty then atoms
  else (centerAtoms atoms).map (fun a => { a with position := R.mv a.position })

/-- Stable insertion sort by the `z` coordinate.  The source uses the stable
`sort_by(total_cmp(z))`; a stable sort for a total preorder is unique, so this
computes the same list. -/
def insertByZ (a : Atom) : List Atom → List Atom
  | [] => [a]
  | b :: bs => if b.position.z < a.position.z then b :: insertByZ a bs else a :: b :: bs

def sortByZ : List Atom → List Atom
  | [] => []
  | a :: rest => insertByZ a (sortByZ rest)

/-- `p1.atoms.iter().map(|a| a.element_id).max().unwrap_or(0)`. -/
def maxElemId (atoms : List Atom) : ℕ :=
  atoms.foldl (fun m a => max m a.element_id) 0

/-- `enumerate().filter(element_id == id).map(index).collect()`. -/
def positionsOf (atoms : List Atom) (id : ℕ) : List ℕ :=
  (atoms.enum.filter (fun p => p.2.element_id == id)).map Prod.fst

/-- `child.atoms[idx].element_id = new_id` (index always in range at call sites). -/
def relabelOne (atoms : List Atom) (idx : ℕ) (new_id : ℕ) : List Atom :=
  match atoms[idx]? with
  | some a => atoms.set idx { a with element_id := new_id }
  | none => atoms

/-- The inner repair loop `for i in 0..surplus`: take the next index from the
shuffled index list, pop a deficit id from the end (`Vec::pop`), relabel.
The source loop reads `indices.get(i)` for increasing `i`; the list is never
mutated, so consuming it from the front is the same iteration. -/
def relabelGo : List Atom → List ℕ → List ℕ → ℕ → List Atom × List ℕ
  | atoms, defs, _, 0 => (atoms, defs)
  | atoms, defs, [], _ + 1 => (atoms, defs)
  | atoms, defs, idx :: restIdx, s + 1 =>
    match defs.getLast? with
    | none => (atoms, defs)
    | some new_id => relabelGo (relabelOne atoms idx new_id) defs.dropLast restIdx s

/-- The outer repair loop over `target_counts.iter().enumerate()`.
`C` is the frozen pre-repair census (`child_counts`), `T` the target census;
the source reads both from vectors built before the loop, so they never see
the relabels done inside the loop. -/
def repairGo (C T : ℕ → ℕ) (d : CrossDraws) : List ℕ → List Atom × List ℕ → List Atom × List ℕ
  | [], st => st
  | id :: rest, (atoms, defs) =>
    let st' :=
      if T id < C id then
        relabelGo atoms defs (d.idxShuffle id (positionsOf atoms id)) (C id - T id)
      else (atoms, defs)
    repairGo C T d rest st'

/-- `crossover_cut_splice` (robust cut-and-splice with alchemy repair).
`target_counts[id]` is the number of `id`-atoms of parent 1 and
`child_counts[id]` the number of `id`-atoms of the spliced child, for every
`id ≤ max_id`; ids above `max_id` are not counted by either vector. -/
def crossover_cut_splice (p1 p2 : Cluster) (d : CrossDraws) : Option Cluster :=
  if p1.atoms.length ≠ p2.atoms.length then none
  else if p1.atoms.length < 2 then none
  else
    let max_id := maxElemId p1.atoms
    let q1 := sortByZ (apply_random_rotation d.rot1 p1.atoms)
    let q2 := sortByZ (apply_random_rotation d.rot2 p2.atoms)
    let childAtoms := q1.take d.cut ++ q2.drop d.cut
    let C := fun id => countId childAtoms id
    let T := fun id => countId p1.atoms id
    let deficits :=
      d.defShuffle ((List.range (max_id + 1)).map (fun id => List.replicate (T id - C id) id)).flatten
    let repaired := (repairGo C T d (List.range (max_id + 1)) (childAtoms, deficits)).1
    some (wrap_or_center { p1 with atoms := repaired })

/-! ## Fingerprint (`src/analysis/topology.rs`) -/

/-- Substring search on character lists (`str::contains`). -/
def hasPre : List Char → List Char → Bool
  | _, [] => true
  | [], _ :: _ => false
  | a :: as, b :: bs => a == b && hasPre as bs

def hasSub : List Char → List Char → Bool
  | [], p => hasPre [] p
  | a :: as, p => hasPre (a :: as) p || hasSub as p

def hasSubstr (s pat : String) : Bool := hasSub s.data pat.data

/-- The bonding adjacency matrix: `A[i][j] = 1` iff `i ≠ j` and the (possibly
periodic) squared distance is below `cutoff_radius²`.  The source fills `i < j`
and mirrors; `distance_sq` is symmetric, so the entrywise form is the same
matrix (`distance_sq_comm` below). -/
def adjacencyMatrix (cluster : Cluster) (cutoff_radius : ℚ) : List (List Bool) :=
  let n := cluster.atoms.length
  let r_sq := cutoff_radius * cutoff_radius
  (List.range n).map (fun i => (List.range n).map (fun j =>
    if i = j then false
    else
      let p_i := (cluster.atoms.getD i ⟨0, Vec3.zero⟩).position
      let p_j := (cluster.atoms.getD j ⟨0, Vec3.zero⟩).position
      decide (distance_sq p_i p_j cluster.lattice < r_sq)))

def Mat3.addM (A B : Mat3) : Mat3 :=
  ⟨A.a00+B.a00, A.a01+B.a01, A.a02+B.a02,
   A.a10+B.a10, A.a11+B.a11, A.a12+B.a12,
   A.a20+B.a20, A.a21+B.a21, A.a22+B.a22⟩

def Mat3.zeroM : Mat3 := ⟨0, 0, 0, 0, 0, 0, 0, 0, 0⟩

/-- Per-atom contribution to the unit-mass inertia tensor (`r = position - centre`). -/
def inertiaTensorAt (r : Vec3) : Mat3 :=
  ⟨r.y*r.y + r.z*r.z, -(r.x*r.y), -(r.x*r.z),
   -(r.x*r.y), r.x*r.x + r.z*r.z, -(r.y*r.z),
   -(r.x*r.z), -(r.y*r.z), r.x*r.x + r.y*r.y⟩

def geomCenter (atoms : List Atom) : Vec3 :=
  Vec3.smul (1 / (atoms.length : ℚ)) (sumPos atoms)

/-- The accumulated unit-mass inertia tensor of `calculate_pmoi_unit_mass`. -/
def inertiaTensor (cluster : Cluster) : Mat3 :=
  let center := geomCenter cluster.atoms
  cluster.atoms.foldl (fun t a => t.addM (inertiaTensorAt (a.position.sub center))) Mat3.zeroM

/-- Spectral data of `calculate_pmoi_unit_mass`: the triple
`(trace T, trace T², det T)` determines the characteristic polynomial of the
symmetric 3×3 tensor, hence its ascending eigenvalue triple — exactly the
PMOI vector the source formats.  For `n < 2` the source returns the zero
vector, whose data is `(0, 0, 0)`. -/
def calculate_pmoi_data (cluster : Cluster) : ℚ × ℚ × ℚ :=
  if cluster.atoms.length < 2 then (0, 0, 0)
  else
    let t := inertiaTensor cluster
    (t.traceM, (t.mul t).traceM, t.det)

/-- The data behind the fingerprint string of `generate_hash_key`:
`empty ↦ "EMPTY"`, `invalidRadius ↦ "INVALID_RADIUS"`, and `fp adj pmoi`
determines the `"GS:[…]|PMOI:[…]"` string (the graph-spectrum part is a
function of the adjacency matrix, the PMOI part of the tensor's spectral
data).  The NaN branch of the source cannot fire in exact arithmetic, where
no coordinate is NaN. -/
inductive HashKeyData where
  | empty
  | invalidRadius
  | fp (adj : List (List Bool)) (pmoiTr pmoiTrSq pmoiDet : ℚ)
deriving DecidableEq

def hashKeyData (cluster : Cluster) (cutoff_radius : ℚ) : HashKeyData :=
  if cluster.atoms.length = 0 then .empty
  else if cutoff_radius ≤ 0 then .invalidRadius
  else
    let pm := calculate_pmoi_data cluster
    .fp (adjacencyMatrix cluster cutoff_radius) pm.1 pm.2.1 pm.2.2

/-- A whole-cluster rigid motion: every atom position becomes `R·p + t`.
(The transformation quantified over by the fingerprint-invariance claim;
not itself part of the source.) -/
def rigidTransform (R : Mat3) (t : Vec3) (c : Cluster) : Cluster :=
  { c with atoms := c.atoms.map (fun a => { a with position := (R.mv a.position).add t }) }

/-- `are_duplicates`. -/
def are_duplicates (c1 c2 : Cluster) (energy_tol : ℚ) : Bool :=
  match c1.energy, c2.energy with
  | some e1, some e2 =>
    if energy_tol < |e1 - e2| then false
    else
      match c1.hash_key, c2.hash_key with
      | some h1, some h2 =>
        if h1 == "INVALID" || h2 == "INVALID" || hasSubstr h1 "NAN" || hasSubstr h2 "NAN" then
          false
        else h1 == h2
      | _, _ => false
  | _, _ => false

/-- The retain loop of `GeneticAlgorithm::deduplicate_population`; the
`HashSet` of seen fingerprints is modelled as a list. -/
def dedupGo : List Cluster → List String → List Cluster
  | [], _ => []
  | c :: rest, seen =>
    if c.status == ClusterStatus.Discarded || c.energy.isNone then dedupGo rest seen
    else
      match c.hash_key with
      | some hash =>
        if hash == "INVALID" || hasSubstr hash "NAN" then c :: dedupGo rest seen
        else if seen.contains hash then dedupGo rest seen
        else c :: dedupGo rest (hash :: seen)
      | none => c :: dedupGo rest seen

/-- `deduplicate_population`: survivors in encounter order plus the diversity
ratio. -/
def deduplicate_population (pop : List Cluster) : List Cluster × ℚ :=
  let initial_count := pop.length
  if initial_count = 0 then (pop, 0)
  else
    let unique := dedupGo pop []
    (unique, (unique.length : ℚ) / (initial_count : ℚ))



/-! ## Solver parameters (`Params`, `src/core/domain.rs`; `max_steps` is set by
`main.rs` together with the other fields) -/

structure Params where
  atom_counts : List ℕ
  box_size : ℚ
  population_size : ℕ
  mutation_rate : ℚ
  crossover_rate : ℚ
  elitism_count : ℕ
  temperature : ℚ
  step_size : ℚ
  bh_steps : ℕ
  max_steps : ℕ

/-- `f64::MAX` as an exact rational, used by `unwrap_or(f64::MAX)`. -/
def f64MAX : ℚ := (2 - 1 / 2 ^ (52 : ℕ)) * 2 ^ (1023 : ℕ)

/-! ## Genetic algorithm (`src/solvers/ga.rs`) -/

/-- The evaluator's successful response (`EvalResult`): an energy and an
optional relaxed geometry. -/
structure EvalResult where
  energy : ℚ
  relaxed_cluster : Option Cluster

/-- Adopt a relaxed geometry: copy positions pairwise, take the returned
lattice if present, re-wrap/centre.  Callers check the atom count first. -/
def adoptGeometry (cluster geom : Cluster) : Cluster :=
  wrap_or_center
    { cluster with
      atoms := cluster.atoms.zipWith (fun orig new => { orig with position := new.position }) geom.atoms
      lattice := if geom.lattice.isSome then geom.lattice else cluster.lattice }

/-- The per-cluster body of `evaluate_batch`: `none` models an `Err` from the
evaluator. -/
def applyEval (res? : Option EvalResult) (cluster : Cluster) : Cluster :=
  match res? with
  | some res =>
    let cluster := { cluster with energy := some res.energy }
    match res.relaxed_cluster with
    | some geom =>
      if geom.atoms.length = cluster.atoms.length then
        { adoptGeometry cluster geom with status := .Evaluated }
      else { cluster with status := .Discarded, energy := none }
    | none => { cluster with status := .Evaluated }
  | none => { cluster with status := .Discarded, energy := none }

/-- `evaluate_batch`: every `Born` cluster receives its evaluator response
(the parallel workers touch disjoint indices; the success counter, used only
for telemetry, is omitted). -/
def evalBatch (responses : ℕ → Option EvalResult) (pop : List Cluster) : List Cluster :=
  pop.mapIdx (fun i c => if c.status == ClusterStatus.Born then applyEval (responses i) c else c)

/-- Step D of the GA loop (and the refill copy of it): store the fingerprint
of every cluster that has an energy.  The numeric eigensolve plus decimal
formatting of `generate_hash_key` is modelled as the oracle string function
`fp` (its spectral data is `hashKeyData`). -/
def fingerprintPass (fp : Cluster → String) (pop : List Cluster) : List Cluster :=
  pop.map (fun c => if c.energy.isSome then { c with hash_key := some (fp c) } else c)

/-- The breeding while-loop, abstracted over the stream of candidate children
(each candidate being a tournament/crossover/mutation outcome): admit a
candidate iff `check_overlap` holds, until the target size is reached.
`none` models a candidate stream that runs dry — in the source the loop would
simply never terminate, so no generation boundary is reached. -/
def breedFill (grid : InteractionGrid) (target gen : ℕ) :
    List Cluster → List Cluster → Option (List Cluster)
  | [], acc => if target ≤ acc.length then some acc else none
  | cand :: rest, acc =>
    if target ≤ acc.length then some acc
    else if check_overlap cand grid then
      breedFill grid target gen rest (acc ++ [{ cand with status := .Born, generation := gen }])
    else breedFill grid target gen rest acc

/-- The attempt loop of `generate_initial_population`. -/
def initPopGo (atom_counts : List ℕ) (box_size : ℚ) (grid : InteractionGrid) (target : ℕ) :
    List RandomDraws → List Cluster → List Cluster
  | [], pop => pop
  | rd :: rest, pop =>
    if target ≤ pop.length then pop
    else
      match Cluster.new_random atom_counts box_size grid rd with
      | some c => initPopGo atom_counts box_size grid target rest (pop ++ [c])
      | none => initPopGo atom_counts box_size grid target rest pop

/-- `generate_initial_population`: exactly `population_size * 50` attempts
(the source's fixed `for _ in 0..attempts` loop), the `k`-th consuming the
`k`-th random draw; the accumulation stops early once the target is full. -/
def generate_initial_population (p : Params) (grid : InteractionGrid)
    (draws : ℕ → RandomDraws) : List Cluster :=
  initPopGo p.atom_counts p.box_size grid p.population_size
    ((List.range (p.population_size * 50)).map draws) []

/-- The smart-refill mutant builder: cycle through the survivors
(best-to-worst, wrapping) and heavy-mutate each
(`rotate(3.14).twist(0.5).rattle(0.2)`), clearing the energy. -/
def buildRefill (source_pool : List Cluster) (needed : ℕ) (draws : ℕ → MutDraws) : List Cluster :=
  (List.range needed).map (fun i =>
    let parent := source_pool.getD (i % source_pool.length) Cluster.newC
    let child := ((((Mutator.newM.rotate (157/50)).twist (1/2)).rattleI (1/5)).apply parent (draws i))
    { child with status := .Born, energy := none })

/-- Comparator of `rank_population` (ascending energy, `None`s at the tail):
`true` iff `b` must come strictly before `a`. -/
def rankBefore (b a : Cluster) : Bool :=
  match b.energy, a.energy with
  | some eb, some ea => decide (eb < ea)
  | some _, none => true
  | none, some _ => false
  | none, none => false

/-- Stable insertion sort implementing `rank_population` (the source uses the
stable `sort_by`; a stable sort for a total preorder is unique). -/
def rankInsert (a : Cluster) : List Cluster → List Cluster
  | [] => [a]
  | b :: bs => if rankBefore b a then b :: rankInsert a bs else a :: b :: bs

def rank_population : List Cluster → List Cluster
  | [] => []
  | a :: rest => rankInsert a (rank_population rest)

/-- The mass-extinction reseeding loop: serially generate and evaluate true
randoms until the population is full (only the returned energy is read). -/
def reseedGo (p : Params) (grid : InteractionGrid) :
    List (RandomDraws × Option ℚ) → List Cluster → List Cluster
  | [], pop => pop
  | (rd, ev) :: rest, pop =>
    if p.population_size ≤ pop.length then pop
    else
      match Cluster.new_random p.atom_counts p.box_size grid rd with
      | some r =>
        match ev with
        | some e => reseedGo p grid rest (pop ++ [{ r with energy := some e, status := .Evaluated }])
        | none => reseedGo p grid rest pop
      | none => reseedGo p grid rest pop

/-- All random draws and evaluator responses of one GA generation. -/
structure GenOracle where
  candidates : List Cluster
  evalMain : ℕ → Option EvalResult
  fingerprint : Cluster → String
  initDraws : ℕ → RandomDraws
  evalCollapse : ℕ → Option EvalResult
  refillDraws : ℕ → MutDraws
  evalRefill : ℕ → Option EvalResult
  reseed : List (RandomDraws × Option ℚ)

/-- What happened in a generation (for stating the population-size claims). -/
structure GenFlags where
  collapsed : Bool
  collapseLen : ℕ
  extinct : Bool
deriving DecidableEq

/-- The adaptive-control state carried across generations. -/
structure GAState where
  population : List Cluster
  stagnation_counter : ℕ
  extinction_cooldown : ℕ
  last_global_best_e : ℚ
  current_mutation_rate : ℚ
  gen : ℕ

/-- One generation of `GeneticAlgorithm::solve` (steps A–E plus the adaptive
state machine; step F, telemetry emission, has no state effect and is
omitted). -/
def genStep (p : Params) (grid : InteractionGrid) (st : GAState) (o : GenOracle) :
    Option (GAState × GenFlags) :=
  let gen := st.gen + 1
  let elites := st.population.take p.elitism_count
  let bred? := if st.population.isEmpty then some elites
               else breedFill grid p.population_size gen o.candidates elites
  match bred? with
  | none => none
  | some next_gen =>
    let next_gen := evalBatch o.evalMain next_gen
    let next_gen := fingerprintPass o.fingerprint next_gen
    let du := deduplicate_population next_gen
    let unique_pop := du.1
    let diversity := du.2
    let refilled : List Cluster × GenFlags :=
      if unique_pop.isEmpty then
        let regen := generate_initial_population p grid o.initDraws
        let regen := evalBatch o.evalCollapse regen
        (regen, ⟨true, regen.length, false⟩)
      else if unique_pop.length < p.population_size then
        let needed := p.population_size - unique_pop.length
        let refill := buildRefill unique_pop needed o.refillDraws
        let refill := evalBatch o.evalRefill refill
        let refill := fingerprintPass o.fingerprint refill
        (unique_pop ++ refill, ⟨false, 0, false⟩)
      else (unique_pop, ⟨false, 0, false⟩)
    let population := rank_population refilled.1
    let current_best_e := (population.head?.bind Cluster.energy).getD f64MAX
    let improved := decide (current_best_e < st.last_global_best_e - 1 / 100000)
    let stag := if improved then 0 else st.stagnation_counter + 1
    let cooldown := if improved then 0 else st.extinction_cooldown
    let mutRate := if improved then p.mutation_rate else st.current_mutation_rate
    let lastBest := if improved then current_best_e else st.last_global_best_e
    if 0 < cooldown then
      some ({ population := population, stagnation_counter := stag,
              extinction_cooldown := cooldown - 1, last_global_best_e := lastBest,
              current_mutation_rate := mutRate, gen := gen }, refilled.2)
    else
      let catastrophic_stagnation := decide (50 < stag)
      let premature_convergence := decide (20 < gen) && decide (20 < stag) && decide (diversity < 1 / 10)
      if catastrophic_stagnation || premature_convergence then
        let keep := p.elitism_count
        let population := if keep < population.length then population.take keep else population
        let population := reseedGo p grid (o.reseed.take (p.population_size * 100)) population
        let population := rank_population population
        some ({ population := population, stagnation_counter := 0,
                extinction_cooldown := 50, last_global_best_e := lastBest,
                current_mutation_rate := p.mutation_rate, gen := gen },
              { refilled.2 with extinct := true })
      else
        let mutRate := if 20 < stag ∧ mutRate < 1 / 2 then 1 / 2 else mutRate
        some ({ population := population, stagnation_counter := stag,
                extinction_cooldown := cooldown, last_global_best_e := lastBest,
                current_mutation_rate := mutRate, gen := gen }, refilled.2)

/-! ## Basin hopping (`src/solvers/bh.rs`) -/

/-- Random draws and evaluator response of one BH step.  `uphillAccept` is the
outcome of `rng.gen::<f64>() < exp(-ΔE/(k_B·T))` — the Metropolis coin flip,
whose probability involves the non-rational `exp`. -/
structure BHOracle where
  mutDraws : MutDraws
  evalResult : Option EvalResult
  uphillAccept : Bool

/-- Walker and best-ever of `BasinHopping::solve`. -/
structure BHState where
  walker : Cluster
  best : Cluster

/-- Step D (Metropolis) plus step E (walker/best update). -/
def bhAccept (p : Params) (st : BHState) (trial : Cluster) (e_new : ℚ) (uphill : Bool) : BHState :=
  let e_old := st.walker.energy.getD f64MAX
  let accepted :=
    if e_new < e_old then true
    else if p.temperature ≤ 1 / 10 ^ (9 : ℕ) then false
    else uphill
  if accepted then
    let walker := trial
    let best :=
      match st.best.energy with
      | some best_e => if e_new < best_e then walker else st.best
      | none => st.best
    ⟨walker, best⟩
  else st

/-- One iteration of the BH main loop (the step-index origin tag and the
telemetry report have no state effect and are omitted). -/
def bhStep (p : Params) (grid : InteractionGrid) (st : BHState) (o : BHOracle) : BHState :=
  let trial := ((Mutator.newM.translate p.step_size).rotate (1/5)).apply st.walker o.mutDraws
  if ¬ check_overlap trial grid then st
  else
    match o.evalResult with
    | none => st
    | some res =>
      let trial := { trial with energy := some res.energy }
      match res.relaxed_cluster with
      | some geom =>
        if geom.atoms.length = trial.atoms.length then
          bhAccept p st { adoptGeometry trial geom with status := .Evaluated } res.energy o.uphillAccept
        else st
      | none => bhAccept p st { trial with status := .Evaluated } res.energy o.uphillAccept

def bhRun (p : Params) (grid : InteractionGrid) (st : BHState) (os : List BHOracle) : BHState :=
  os.foldl (fun s o => bhStep p grid s o) st

/-- Initialisation of `BasinHopping::solve`: `bh_steps = 0` and a failed
initial relaxation both exit before the loop (`none`); otherwise the walker is
relaxed if it has no energy yet (a mismatched relaxed geometry is silently
skipped here), and `best` starts as a copy of the walker. -/
def bhInit (p : Params) (current : Cluster) (initEval : Option EvalResult) : Option BHState :=
  if p.bh_steps = 0 then none
  else
    let current? :=
      if current.energy.isNone then
        match initEval with
        | some res =>
          let current := { current with energy := some res.energy }
          let current :=
            match res.relaxed_cluster with
            | some geom =>
              if geom.atoms.length = current.atoms.length then adoptGeometry current geom
              else current
            | none => current
          some { current with status := .Evaluated }
        | none => none
      else some current
    current?.map (fun c => ⟨c, c⟩)


/-- An integer translation vector, as quantified over by the minimum-image
claim. -/
def intVec (v : ℤ × ℤ × ℤ) : Vec3 := ⟨(v.1 : ℚ), (v.2.1 : ℚ), (v.2.2 : ℚ)⟩


/-- A cluster that the dedup loop treats as always-unique (and that is not
dropped for being `Discarded` or energy-less): its stored fingerprint is the
exact string `"INVALID"` or contains `"NAN"`. -/
def specialKeep (c : Cluster) : Bool :=
  (c.status != ClusterStatus.Discarded) && c.energy.isSome &&
    (match c.hash_key with
     | some h => h == "INVALID" || hasSubstr h "NAN"
     | none => false)


/-- Concrete clusters carrying degenerate fingerprints, used by the
deduplication theorems. -/
def cNanKey : Cluster := { Cluster.newC with energy := some 0, hash_key := some "NAN_COORDS", status := .Evaluated }

def cInvRad1 : Cluster := { Cluster.newC with energy := some 0, hash_key := some "INVALID_RADIUS", status := .Evaluated }

def cInvRad2 : Cluster := { Cluster.newC with generation := 1, energy := some 0, hash_key := some "INVALID_RADIUS", status := .Evaluated }


/-- The basin-hopping record invariant: both the best-ever and the walker
carry an energy, and the best-ever energy is no larger. -/
def bhInvariant (s : BHState) : Prop :=
  ∃ be we, s.best.energy = some be ∧ s.walker.energy = some we ∧ be ≤ we


/-- Concrete inputs for the basin-hopping witness run. -/
def pBH6 : Params := ⟨[], 1, 1, 0, 0, 0, 0, 1, 1, 1⟩

def gridBH6 : InteractionGrid := ⟨0, []⟩

def cBH6 : Cluster := { Cluster.newC with energy := some 0 }

def oBH6 : BHOracle := ⟨⟨0, Mat3.idM, fun _ => (0, 1), fun _ => Vec3.zero, [], Vec3.zero⟩, none, false⟩


/-- Pairwise separation as guaranteed by random sequential adsorption: every
later-placed atom is at least the grid threshold (squared, Euclidean) away
from every earlier-placed one. -/
def pairSeparated (grid : InteractionGrid) (atoms : List Atom) : Prop :=
  ∀ i j, i < j → j < atoms.length →
    grid.get_collision_sq ((atoms.getD j ⟨0, Vec3.zero⟩).element_id)
        ((atoms.getD i ⟨0, Vec3.zero⟩).element_id) ≤
      (((atoms.getD j ⟨0, Vec3.zero⟩).position).sub
        ((atoms.getD i ⟨0, Vec3.zero⟩).position)).normSq


/-- Concrete inputs for the `new_random` witness run. -/
def rdW : RandomDraws := ⟨id, fun _ _ => ⟨7, 0, 0⟩⟩

def gridW : InteractionGrid := InteractionGrid.new [⟨1⟩] (1/2)

def cW : Cluster := { Cluster.newC with atoms := [⟨0, ⟨0, 0, 0⟩⟩] }


def Mat3.subM (A B : Mat3) : Mat3 :=
  ⟨A.a00-B.a00, A.a01-B.a01, A.a02-B.a02,
   A.a10-B.a10, A.a11-B.a11, A.a12-B.a12,
   A.a20-B.a20, A.a21-B.a21, A.a22-B.a22⟩

def Mat3.smulM (q : ℚ) (A : Mat3) : Mat3 :=
  ⟨q*A.a00, q*A.a01, q*A.a02, q*A.a10, q*A.a11, q*A.a12, q*A.a20, q*A.a21, q*A.a22⟩

/-- Outer product `u vᵀ`, used to restate the per-atom inertia contribution. -/
def outerProd (u v : Vec3) : Mat3 :=
  ⟨u.x*v.x, u.x*v.y, u.x*v.z, u.y*v.x, u.y*v.y, u.y*v.z, u.z*v.x, u.z*v.y, u.z*v.z⟩

/-- The rational rotation by the 3-4-5 angle about the z axis. -/
def R345 : Mat3 := ⟨3/5, -(4/5), 0, 4/5, 3/5, 0, 0, 0, 1⟩

/-- A cubic box of edge 3 (a well-formed lattice). -/
def latC3 : LatticeQ := ⟨⟨3, 0, 0, 0, 3, 0, 0, 0, 3⟩, ⟨1/3, 0, 0, 0, 1/3, 0, 0, 0, 1/3⟩⟩

/-- A periodic two-atom cluster whose bond crosses the cell boundary. -/
def cC3 : Cluster :=
  { Cluster.newC with atoms := [⟨0, ⟨0, 0, 0⟩⟩, ⟨0, ⟨21/10, 0, 0⟩⟩], lattice := some latC3 }

/-- A free (0-D) two-atom cluster for the fingerprint-invariance witness. -/
def cC3w : Cluster := { Cluster.newC with atoms := [⟨0, ⟨0, 0, 0⟩⟩, ⟨0, ⟨1, 0, 0⟩⟩] }

/-- Determinant of a 2×2 bond matrix — a spectral invariant: the eigenvalue
pair of the adjacency matrix determines it, so two adjacency matrices with
different `adjDet2` have different (formatted) graph spectra. -/
def adjDet2 (m : List (List Bool)) : ℤ :=
  (if (m.getD 0 []).getD 0 false then (1 : ℤ) else 0) *
    (if (m.getD 1 []).getD 1 false then (1 : ℤ) else 0) -
  (if (m.getD 0 []).getD 1 false then (1 : ℤ) else 0) *
    (if (m.getD 1 []).getD 0 false then (1 : ℤ) else 0)

/-- A two-atom single-species parent, already centred (species 0). -/
def pW1 : Cluster :=
  { Cluster.newC with atoms := [⟨0, ⟨0, 0, -(1/2)⟩⟩, ⟨0, ⟨0, 0, 1/2⟩⟩] }

/-- A two-atom parent whose species id 1 exceeds `maxElemId pW1.atoms = 0`. -/
def pX2 : Cluster :=
  { Cluster.newC with atoms := [⟨1, ⟨0, 0, -(1/2)⟩⟩, ⟨1, ⟨0, 0, 1/2⟩⟩] }

/-- Identity draws for `crossover_cut_splice`: identity rotations, cut 1,
identity shuffles. -/
def dLin : CrossDraws := ⟨Mat3.idM, Mat3.idM, 1, fun l => l, fun _ l => l⟩

/-- A single-species grid with covalent radius 1 and scale 1: collision
threshold `((1+1)*1)² = 4` for the pair `(0, 0)`. -/
def gridC2 : InteractionGrid := InteractionGrid.new [⟨1⟩] 1

/-- An evaluated two-atom cluster at `x = ∓21/20` (separation² `4.41 ≥ 4`). -/
def aC2 : Cluster :=
  { Cluster.newC with atoms := [⟨0, ⟨-(21/20), 0, 0⟩⟩, ⟨0, ⟨21/20, 0, 0⟩⟩], energy := some 0, status := .Evaluated }

/-- `aC2` after the fingerprint pass. -/
def aC2h : Cluster := { aC2 with hash_key := some "same" }

/-- A breeding candidate with the same geometry as `aC2`. -/
def cCand : Cluster :=
  { Cluster.newC with atoms := [⟨0, ⟨-(21/20), 0, 0⟩⟩, ⟨0, ⟨21/20, 0, 0⟩⟩] }

/-- Refill mutation draws: identity rotation, zero twist angle, and a rattle
pulling the two atoms together by `3/20` each. -/
def mdC2 : MutDraws :=
  ⟨0, Mat3.idM, fun _ => (0, 1),
   fun i => if i = 0 then ⟨3/20, 0, 0⟩ else ⟨-(3/20), 0, 0⟩, [], ⟨0, 0, 0⟩⟩

def pC2 : Params := ⟨[2], 10, 2, 1/10, 1/2, 2, 1/10, 1/10, 1, 5⟩

def oC2 : GenOracle :=
  ⟨[], fun _ => none, fun _ => "same", fun _ => rdW, fun _ => none,
   fun _ => mdC2, fun _ => some ⟨0, none⟩, []⟩

def stC2 : GAState := ⟨[aC2, aC2], 0, 0, -5, 1/10, 0⟩

/-- The refill mutant that ends up in the population: atoms at `x = ∓9/10`
(separation² `3.24 < 4`, an overlap violation). -/
def refC2 : Cluster :=
  { Cluster.newC with atoms := [⟨0, ⟨-(9/10), 0, 0⟩⟩, ⟨0, ⟨9/10, 0, 0⟩⟩], energy := some 0, hash_key := some "same", status := .Evaluated }

/-- A single-atom candidate (trivially overlap-free). -/
def candW2 : Cluster := { Cluster.newC with atoms := [⟨0, ⟨0, 0, 0⟩⟩] }

/-- A healthy single-atom evaluated cluster for the size-invariant witness. -/
def wc7 : Cluster :=
  { Cluster.newC with atoms := [⟨0, ⟨0, 0, 0⟩⟩], energy := some 0, status := .Evaluated }

/-- `wc7` after the fingerprint pass. -/
def wch7 : Cluster := { wc7 with hash_key := some "w" }

def pW7 : Params := ⟨[1], 10, 1, 1/10, 1/2, 1, 1/10, 1/10, 1, 5⟩

def stW7 : GAState := ⟨[wc7], 0, 0, -5, 1/10, 0⟩

def oW7 : GenOracle :=
  ⟨[], fun _ => none, fun _ => "w", fun _ => rdW, fun _ => none,
   fun _ => mdC2, fun _ => none, []⟩

/-- Parameters whose box cannot hold two atoms: `atom_counts = [2]`,
`box_size = 1`, while the `gridC2` collision threshold² is `4` — any two
points of the unit box are at squared distance at most `3`, so every
placement of the second atom clashes and `Cluster::new_random` always
fails. -/
def pX7 : Params := ⟨[2], 1, 1, 1/10, 1/2, 1, 1/10, 1/10, 1, 5⟩

/-- A state whose population is empty — exactly what `solve` starts its loop
with when the initial `generate_initial_population` comes back empty. -/
def stX7 : GAState := ⟨[], 0, 0, -5, 1/10, 0⟩

/-- In-box random draws for the doomed regeneration: every candidate
position is the box centre `(1/2, 1/2, 1/2)`. -/
def rdBad : RandomDraws := ⟨fun l => l, fun _ _ => ⟨1/2, 1/2, 1/2⟩⟩

/-- Oracle for the collapse-shortfall generation: all
`population_size * 50` regeneration draws are `rdBad` (any in-box draws
would fail equally). -/
def oX7 : GenOracle :=
  ⟨[], fun _ => none, fun _ => "x", fun _ => rdBad, fun _ => none,
   fun _ => mdC2, fun _ => none, []⟩

/-! ### THEOREMS BELOW -/

theorem Mat3.det_mul (A B : Mat3) : (A.mul B).det = A.det * B.det := by
  simp only [Mat3.det, Mat3.mul]
  ring
theorem Mat3.adj_mul (A : Mat3) : A.adj.mul A = ⟨A.det,0,0,0,A.det,0,0,0,A.det⟩ := by
  simp only [Mat3.adj, Mat3.mul, Mat3.det, Mat3.mk.injEq]
  refine ⟨by ring, by ring, by ring, by ring, by ring, by ring, by ring, by ring, by ring⟩
theorem Mat3.mul_assoc3 (A B C : Mat3) : (A.mul B).mul C = A.mul (B.mul C) := by
  simp only [Mat3.mul, Mat3.mk.injEq]
  refine ⟨by ring, by ring, by ring, by ring, by ring, by ring, by ring, by ring, by ring⟩
theorem Mat3.diag_cancel (d : ℚ) (hd : d ≠ 0) (M : Mat3)
    (h : Mat3.mul ⟨d,0,0,0,d,0,0,0,d⟩ M = ⟨d,0,0,0,d,0,0,0,d⟩) : M = Mat3.idM := by
  cases M with
  | mk m00 m01 m02 m10 m11 m12 m20 m21 m22 =>
  simp only [Mat3.mul, Mat3.idM, Mat3.mk.injEq] at h ⊢
  obtain ⟨e1, e2, e3, e4, e5, e6, e7, e8, e9⟩ := h
  refine ⟨?_, ?_, ?_, ?_, ?_, ?_, ?_, ?_, ?_⟩ <;>
    [ (have h' : d * m00 = d * 1 := by linarith);
      (have h' : d * m01 = d * 0 := by linarith);
      (have h' : d * m02 = d * 0 := by linarith);
      (have h' : d * m10 = d * 0 := by linarith);
      (have h' : d * m11 = d * 1 := by linarith);
      (have h' : d * m12 = d * 0 := by linarith);
      (have h' : d * m20 = d * 0 := by linarith);
      (have h' : d * m21 = d * 0 := by linarith);
      (have h' : d * m22 = d * 1 := by linarith)] <;>
    exact mul_left_cancel₀ hd h'
/-- A square matrix with a one-sided inverse has it on the other side too. -/
theorem Mat3.mul_one_comm (A B : Mat3) (h : A.mul B = Mat3.idM) : B.mul A = Mat3.idM := by
  have hdet : A.det * B.det = 1 := by rw [← Mat3.det_mul, h]; simp [Mat3.det, Mat3.idM]
  have hA : A.det ≠ 0 := by
    intro h0
    rw [h0, zero_mul] at hdet
    exact one_ne_zero hdet.symm
  have h1 : (A.adj.mul A).mul B = A.adj := by
    rw [Mat3.mul_assoc3, h]
    simp [Mat3.mul, Mat3.idM]
  rw [Mat3.adj_mul] at h1
  have h2 : (A.adj.mul A).mul (B.mul A) = A.adj.mul A := by
    rw [Mat3.adj_mul, ← Mat3.mul_assoc3, h1, Mat3.adj_mul]
  rw [Mat3.adj_mul] at h2
  exact Mat3.diag_cancel A.det hA (B.mul A) h2
theorem Mat3.mv_mul (A B : Mat3) (v : Vec3) : (A.mul B).mv v = A.mv (B.mv v) := by
  simp only [Mat3.mul, Mat3.mv, Vec3.mk.injEq]
  refine ⟨by ring, by ring, by ring⟩
theorem Mat3.mv_id (v : Vec3) : Mat3.idM.mv v = v := by
  cases v
  simp only [Mat3.idM, Mat3.mv, Vec3.mk.injEq]
  refine ⟨by ring, by ring, by ring⟩
theorem Mat3.mv_sub (A : Mat3) (u v : Vec3) : A.mv (u.sub v) = (A.mv u).sub (A.mv v) := by
  simp only [Mat3.mv, Vec3.sub, Vec3.mk.injEq]
  refine ⟨by ring, by ring, by ring⟩
theorem Mat3.mv_add (A : Mat3) (u v : Vec3) : A.mv (u.add v) = (A.mv u).add (A.mv v) := by
  simp only [Mat3.mv, Vec3.add, Vec3.mk.injEq]
  refine ⟨by ring, by ring, by ring⟩
theorem Mat3.mv_zero (A : Mat3) : A.mv Vec3.zero = Vec3.zero := by
  simp only [Mat3.mv, Vec3.zero, Vec3.mk.injEq]
  refine ⟨by ring, by ring, by ring⟩
/-- Norm preservation under an orthogonal matrix (`Rᵀ R = 1`). -/
theorem Mat3.normSq_mv (R : Mat3) (h : R.transposeM.mul R = Mat3.idM) (v : Vec3) :
    (R.mv v).normSq = v.normSq := by
  simp only [Mat3.transposeM, Mat3.mul, Mat3.idM, Mat3.mk.injEq] at h
  obtain ⟨e1, e2, e3, e4, e5, e6, e7, e8, e9⟩ := h
  simp only [Mat3.mv, Vec3.normSq]
  linear_combination (v.x * v.x) * e1 + (v.x * v.y) * e2 + (v.x * v.z) * e3 +
    (v.y * v.x) * e4 + (v.y * v.y) * e5 + (v.y * v.z) * e6 +
    (v.z * v.x) * e7 + (v.z * v.y) * e8 + (v.z * v.z) * e9
theorem rustRound_intCast (n : ℤ) : rustRound (n : ℚ) = n := by
  unfold rustRound
  rcases le_or_lt 0 (n : ℚ) with h | h
  · rw [if_pos h, round_intCast]
  · rw [if_neg (not_le.mpr h), ← Int.cast_neg, round_intCast]
    ring

/-! ### General vector/list lemmas -/

theorem Vec3.add_zero' (v : Vec3) : v.add Vec3.zero = v := by
  cases v
  simp only [Vec3.add, Vec3.zero, Vec3.mk.injEq]
  exact ⟨by ring, by ring, by ring⟩

theorem Vec3.zero_add' (v : Vec3) : Vec3.zero.add v = v := by
  cases v
  simp only [Vec3.add, Vec3.zero, Vec3.mk.injEq]
  exact ⟨by ring, by ring, by ring⟩

theorem Vec3.sub_zero' (v : Vec3) : v.sub Vec3.zero = v := by
  cases v
  simp only [Vec3.sub, Vec3.zero, Vec3.mk.injEq]
  exact ⟨by ring, by ring, by ring⟩

theorem Vec3.add_assoc' (u v w : Vec3) : (u.add v).add w = u.add (v.add w) := by
  simp only [Vec3.add, Vec3.mk.injEq]
  exact ⟨by ring, by ring, by ring⟩

theorem Vec3.add_sub_cancel' (p w : Vec3) : (p.add w).sub p = w := by
  cases w
  simp only [Vec3.add, Vec3.sub, Vec3.mk.injEq]
  exact ⟨by ring, by ring, by ring⟩

theorem Vec3.sub_self' (v : Vec3) : v.sub v = Vec3.zero := by
  simp only [Vec3.sub, Vec3.zero, Vec3.mk.injEq]
  exact ⟨by ring, by ring, by ring⟩

theorem Vec3.normSq_zero' : Vec3.zero.normSq = 0 := by
  simp [Vec3.normSq, Vec3.zero]

/-! ### Claim C10 -/

/-- C10: for parents with equal atom counts below 2 (n = 0 or n = 1),
`crossover_cut_splice` returns `None` — on top of the spec's stated
unequal-counts condition. -/
theorem crossover_small_returns_none (p1 p2 : Cluster) (d : CrossDraws)
    (hlen : p1.atoms.length = p2.atoms.length) (hn : p1.atoms.length < 2) :
    crossover_cut_splice p1 p2 d = none := by
  unfold crossover_cut_splice
  rw [if_neg (fun h => h hlen), if_pos hn]

/-- Witness for C10 at two empty parents. -/
theorem crossover_small_returns_none_witness :
    (Cluster.newC.atoms.length = Cluster.newC.atoms.length ∧ Cluster.newC.atoms.length < 2) ∧
      crossover_cut_splice Cluster.newC Cluster.newC
        ⟨Mat3.idM, Mat3.idM, 1, id, fun _ => id⟩ = none :=
  ⟨⟨rfl, by decide⟩,
   crossover_small_returns_none Cluster.newC Cluster.newC _ rfl (by decide)⟩

/-! ### Claim C4 -/

/-- Unfolded form of the periodic branch of `distance_sq` (pure unfolding). -/
theorem distance_sq_some (p1 p2 : Vec3) (lat : LatticeQ) :
    distance_sq p1 p2 (some lat) =
      (lat.vectors.mv
        ⟨(lat.inverse.mv (p2.sub p1)).x - (rustRound (lat.inverse.mv (p2.sub p1)).x : ℚ),
         (lat.inverse.mv (p2.sub p1)).y - (rustRound (lat.inverse.mv (p2.sub p1)).y : ℚ),
         (lat.inverse.mv (p2.sub p1)).z - (rustRound (lat.inverse.mv (p2.sub p1)).z : ℚ)⟩).normSq :=
  rfl

/-- C4 (amended): for a well-formed lattice, `distance_sq(p, p + L·v)` is `0`
for every integer vector `v`; and `distance_sq(p₁, p₂)` always equals the
squared Euclidean distance to *some* image translation `L·v` (the one obtained
by rounding the fractional components) — but, as `minimum_image_not_least`
shows, not in general the minimum over all image translations. -/
theorem distance_sq_image (lat : LatticeQ) (h : lat.WellFormed) :
    (∀ (p : Vec3) (v : ℤ × ℤ × ℤ),
        distance_sq p (p.add (lat.vectors.mv (intVec v))) (some lat) = 0) ∧
    (∀ p1 p2 : Vec3, ∃ v : ℤ × ℤ × ℤ,
        distance_sq p1 p2 (some lat) =
          ((p2.sub p1).sub (lat.vectors.mv (intVec v))).normSq) := by
  constructor
  · intro p v
    rw [distance_sq_some]
    have hd : (p.add (lat.vectors.mv (intVec v))).sub p = lat.vectors.mv (intVec v) :=
      Vec3.add_sub_cancel' p _
    rw [hd, ← Mat3.mv_mul, h, Mat3.mv_id]
    obtain ⟨a, b, c⟩ := v
    simp only [intVec, rustRound_intCast, sub_self]
    rw [show (⟨0, 0, 0⟩ : Vec3) = Vec3.zero from rfl, Mat3.mv_zero]
    exact Vec3.normSq_zero'
  · intro p1 p2
    refine ⟨(rustRound (lat.inverse.mv (p2.sub p1)).x,
             rustRound (lat.inverse.mv (p2.sub p1)).y,
             rustRound (lat.inverse.mv (p2.sub p1)).z), ?_⟩
    rw [distance_sq_some]
    have hR : lat.vectors.mul lat.inverse = Mat3.idM := Mat3.mul_one_comm _ _ h
    have hLf : lat.vectors.mv (lat.inverse.mv (p2.sub p1)) = p2.sub p1 := by
      rw [← Mat3.mv_mul, hR, Mat3.mv_id]
    have hw : (⟨(lat.inverse.mv (p2.sub p1)).x - (rustRound (lat.inverse.mv (p2.sub p1)).x : ℚ),
               (lat.inverse.mv (p2.sub p1)).y - (rustRound (lat.inverse.mv (p2.sub p1)).y : ℚ),
               (lat.inverse.mv (p2.sub p1)).z - (rustRound (lat.inverse.mv (p2.sub p1)).z : ℚ)⟩ : Vec3) =
        (lat.inverse.mv (p2.sub p1)).sub
          (intVec (rustRound (lat.inverse.mv (p2.sub p1)).x,
                   rustRound (lat.inverse.mv (p2.sub p1)).y,
                   rustRound (lat.inverse.mv (p2.sub p1)).z)) := rfl
    rw [hw, Mat3.mv_sub, hLf]

/-- Witness for C4 (amended) at the identity lattice, `p = (1,2,3)`,
`v = (1, 0, -1)`. -/
theorem distance_sq_image_witness :
    LatticeQ.WellFormed ⟨Mat3.idM, Mat3.idM⟩ ∧
      distance_sq ⟨1, 2, 3⟩
        ((Vec3.mk 1 2 3).add ((Mat3.idM).mv (intVec (1, 0, -1))))
        (some ⟨Mat3.idM, Mat3.idM⟩) = 0 := by
  have hwf : LatticeQ.WellFormed ⟨Mat3.idM, Mat3.idM⟩ := by
    show Mat3.mul Mat3.idM Mat3.idM = Mat3.idM
    simp only [Mat3.mul, Mat3.idM, Mat3.mk.injEq]
    norm_num
  exact ⟨hwf, (distance_sq_image ⟨Mat3.idM, Mat3.idM⟩ hwf).1 ⟨1, 2, 3⟩ (1, 0, -1)⟩

/-- C4 counterexample: for the skewed (but perfectly valid and well-formed)
lattice with columns `a = (1,0,0)`, `b = (1/2,1/10,0)`, `c = (0,0,1)` and the
points `p₁ = 0`, `p₂ = (2/5,0,0)`, the value of `distance_sq` is `4/25`, yet
the image translation `v = (1,-1,0)` gives squared distance `1/50 < 4/25`: the
rounding-based minimum-image value is *not* the minimum over all image
translations, refuting the claim's second conjunct. -/
theorem minimum_image_not_least :
    ¬ IsLeast
        {q : ℚ | ∃ v : ℤ × ℤ × ℤ,
          q = (((Vec3.mk (2/5) 0 0).sub ⟨0, 0, 0⟩).sub
                ((Mat3.mk 1 (1/2) 0 0 (1/10) 0 0 0 1).mv (intVec v))).normSq}
        (distance_sq ⟨0, 0, 0⟩ ⟨2/5, 0, 0⟩
          (some ⟨⟨1, (1/2), 0, 0, (1/10), 0, 0, 0, 1⟩, ⟨1, -5, 0, 0, 10, 0, 0, 0, 1⟩⟩)) := by
  intro hle
  have hub := hle.2 ⟨(1, -1, 0), rfl⟩
  have hr1 : rustRound (2/5 : ℚ) = 0 := by
    rw [rustRound, if_pos (by norm_num), round_eq]
    norm_num [Int.floor_eq_iff]
  have hr0 : rustRound (0 : ℚ) = 0 := by
    rw [rustRound, if_pos le_rfl, round_eq]
    norm_num [Int.floor_eq_iff]
  have hdist : distance_sq ⟨0, 0, 0⟩ ⟨2/5, 0, 0⟩
      (some ⟨⟨1, (1/2), 0, 0, (1/10), 0, 0, 0, 1⟩, ⟨1, -5, 0, 0, 10, 0, 0, 0, 1⟩⟩) = 4/25 := by
    rw [distance_sq_some]
    have hfrac : (Mat3.mk 1 (-5) 0 0 10 0 0 0 1).mv ((Vec3.mk (2/5) 0 0).sub ⟨0, 0, 0⟩) =
        ⟨2/5, 0, 0⟩ := by
      simp only [Mat3.mv, Vec3.sub, Vec3.mk.injEq]
      norm_num
    rw [hfrac]
    simp only [hr1, hr0]
    simp only [Mat3.mv, Vec3.normSq]
    norm_num
  have himg : (((Vec3.mk (2/5) 0 0).sub ⟨0, 0, 0⟩).sub
      ((Mat3.mk 1 (1/2) 0 0 (1/10) 0 0 0 1).mv (intVec (1, -1, 0)))).normSq = 1/50 := by
    simp only [intVec, Mat3.mv, Vec3.sub, Vec3.normSq]
    norm_num
  rw [hdist, himg] at hub
  norm_num at hub

/-! ### Claim C9 -/

theorem foldlAdd_acc (l : List Atom) (acc : Vec3) :
    l.foldl (fun s a => s.add a.position) acc = acc.add (sumPos l) := by
  induction l generalizing acc with
  | nil => simp [sumPos, Vec3.add_zero']
  | cons a t ih =>
    simp only [List.foldl_cons]
    rw [ih]
    have ht : sumPos (a :: t) = a.position.add (sumPos t) := by
      show List.foldl _ (Vec3.zero.add a.position) t = _
      rw [ih, Vec3.zero_add']
    rw [ht, Vec3.add_assoc']

theorem sumPos_cons (a : Atom) (t : List Atom) :
    sumPos (a :: t) = a.position.add (sumPos t) := by
  show List.foldl _ (Vec3.zero.add a.position) t = _
  rw [foldlAdd_acc, Vec3.zero_add']

theorem sumPos_map_sub (l : List Atom) (t : Vec3) :
    sumPos (l.map fun a => { a with position := a.position.sub t }) =
      (sumPos l).sub (Vec3.smul (l.length : ℚ) t) := by
  induction l with
  | nil =>
    simp only [List.map_nil, sumPos, List.foldl_nil, List.length_nil, Nat.cast_zero]
    simp only [Vec3.sub, Vec3.smul, Vec3.zero, Vec3.mk.injEq]
    refine ⟨by ring, by ring, by ring⟩
  | cons a l ih =>
    simp only [List.map_cons, sumPos_cons, ih, List.length_cons]
    simp only [Vec3.add, Vec3.sub, Vec3.smul, Vec3.mk.injEq]
    push_cast
    refine ⟨by ring, by ring, by ring⟩

theorem mapIdOf {α : Type} (f : α → α) (h : ∀ a, f a = a) (l : List α) : l.map f = l := by
  induction l with
  | nil => rfl
  | cons a t ih => simp [h, ih]

theorem mapCongrOf {α β : Type} (f g : α → β) (h : ∀ a, f a = g a) (l : List α) :
    l.map f = l.map g := by
  induction l with
  | nil => rfl
  | cons a t ih => simp [h, ih]

theorem isEmpty_false_ne_nil {α : Type} (l : List α) (h : l.isEmpty = false) : l ≠ [] := by
  intro h0
  rw [h0] at h
  simp at h

theorem centerAtoms_ne (l : List Atom) (h : l.isEmpty = false) :
    centerAtoms l =
      l.map (fun a =>
        { a with position := a.position.sub (Vec3.smul (1 / (l.length : ℚ)) (sumPos l)) }) := by
  rw [centerAtoms, if_neg (by simp [h])]

theorem centerAtoms_sum (l : List Atom) : sumPos (centerAtoms l) = Vec3.zero := by
  rcases he : l.isEmpty with _ | _
  · rw [centerAtoms_ne l he, sumPos_map_sub]
    have hn : (l.length : ℚ) ≠ 0 := by
      have hnil := isEmpty_false_ne_nil l he
      have hl : l.length ≠ 0 := fun h0 => hnil (List.length_eq_zero.mp h0)
      exact_mod_cast hl
    rcases hs : sumPos l with ⟨sx, sy, sz⟩
    simp only [Vec3.sub, Vec3.smul, Vec3.zero, Vec3.mk.injEq]
    refine ⟨?_, ?_, ?_⟩ <;> field_simp
  · have : l = [] := by
      cases l with
      | nil => rfl
      | cons a t => simp [List.isEmpty] at he
    rw [this]
    rfl

theorem centerAtoms_length (l : List Atom) : (centerAtoms l).length = l.length := by
  rcases he : l.isEmpty with _ | _
  · rw [centerAtoms_ne l he, List.length_map]
  · rw [centerAtoms, if_pos (by simp [he])]

theorem centerAtoms_idem (l : List Atom) : centerAtoms (centerAtoms l) = centerAtoms l := by
  rcases he : l.isEmpty with _ | _
  · have he' : (centerAtoms l).isEmpty = false := by
      rcases hc : centerAtoms l with _ | ⟨a, t⟩
      · exfalso
        have hlen := centerAtoms_length l
        rw [hc] at hlen
        exact isEmpty_false_ne_nil l he (List.length_eq_zero.mp hlen.symm)
      · simp [List.isEmpty]
    rw [centerAtoms_ne _ he', centerAtoms_sum]
    have hz : ∀ a : Atom,
        ({ a with position := a.position.sub (Vec3.smul (1 / ((centerAtoms l).length : ℚ)) Vec3.zero) } : Atom) = a := by
      intro a
      have hp : a.position.sub (Vec3.smul (1 / ((centerAtoms l).length : ℚ)) Vec3.zero) =
          a.position := by
        rcases hv : a.position with ⟨px, py, pz⟩
        simp only [Vec3.sub, Vec3.smul, Vec3.zero, Vec3.mk.injEq]
        refine ⟨by ring, by ring, by ring⟩
      rw [hp]
    exact mapIdOf _ hz _
  · have : l = [] := by
      cases l with
      | nil => rfl
      | cons a t => simp [List.isEmpty] at he
    rw [this]
    rfl

theorem wrapAtom_idem (lat : LatticeQ) (hwf : lat.WellFormed) (a : Atom) :
    wrapAtom lat (wrapAtom lat a) = wrapAtom lat a := by
  have hq : lat.inverse.mv (lat.vectors.mv
      ⟨remEuclidOne (lat.inverse.mv a.position).x,
       remEuclidOne (lat.inverse.mv a.position).y,
       remEuclidOne (lat.inverse.mv a.position).z⟩) =
      ⟨remEuclidOne (lat.inverse.mv a.position).x,
       remEuclidOne (lat.inverse.mv a.position).y,
       remEuclidOne (lat.inverse.mv a.position).z⟩ := by
    rw [← Mat3.mv_mul, hwf, Mat3.mv_id]
  unfold wrapAtom LatticeQ.to_fractional LatticeQ.to_cartesian
  simp only [Atom.mk.injEq, hq]
  refine ⟨trivial, ?_⟩
  simp only [remEuclidOne, Int.fract_fract]

theorem wrapAtom_element_id (lat : LatticeQ) (a : Atom) :
    (wrapAtom lat a).element_id = a.element_id := rfl

/-- C9: `wrap_or_center` is idempotent (exactly, in the exact-arithmetic
embedding, for both the lattice `[0,1)`-wrap branch and the 0-D centring
branch; for lattice clusters this uses the `Lattice::new` invariant that the
stored inverse really inverts the cell matrix), it never changes the number of
atoms, and it never reorders them: the `i`-th atom keeps its species index
(only its position changes). -/
theorem wrap_or_center_idem (c : Cluster)
    (h : ∀ lat, c.lattice = some lat → lat.WellFormed) :
    wrap_or_center (wrap_or_center c) = wrap_or_center c ∧
    (wrap_or_center c).atoms.length = c.atoms.length ∧
    ∀ i : ℕ, ((wrap_or_center c).atoms[i]?).map Atom.element_id =
      (c.atoms[i]?).map Atom.element_id := by
  rcases hc : c.lattice with _ | lat
  · have e1 : wrap_or_center c = { c with atoms := centerAtoms c.atoms } := by
      rw [wrap_or_center, hc]
    have e2 : wrap_or_center (wrap_or_center c) =
        { c with atoms := centerAtoms (centerAtoms c.atoms) } := by
      rw [e1]
      simp only [wrap_or_center, hc]
    refine ⟨?_, ?_, ?_⟩
    · rw [e2, e1, centerAtoms_idem]
    · rw [e1]
      exact centerAtoms_length c.atoms
    · intro i
      rw [e1]
      show ((centerAtoms c.atoms)[i]?).map _ = _
      rcases he : c.atoms.isEmpty with _ | _
      · rw [centerAtoms_ne _ he, List.getElem?_map]
        rcases c.atoms[i]? with _ | a <;> rfl
      · have : c.atoms = [] := by
          cases hl : c.atoms with
          | nil => rfl
          | cons a t => rw [hl] at he; simp [List.isEmpty] at he
        rw [this]
        rfl
  · have hwf := h lat hc
    have e1 : wrap_or_center c = { c with atoms := c.atoms.map (wrapAtom lat) } := by
      rw [wrap_or_center, hc]
    have e2 : wrap_or_center (wrap_or_center c) =
        { c with atoms := (c.atoms.map (wrapAtom lat)).map (wrapAtom lat) } := by
      rw [e1]
      simp only [wrap_or_center, hc]
    refine ⟨?_, ?_, ?_⟩
    · rw [e2, e1]
      congr 1
      rw [List.map_map]
      exact mapCongrOf _ _ (fun a => wrapAtom_idem lat hwf a) _
    · rw [e1]
      exact List.length_map _ _
    · intro i
      rw [e1]
      show ((c.atoms.map (wrapAtom lat))[i]?).map _ = _
      rw [List.getElem?_map]
      rcases c.atoms[i]? with _ | a <;> rfl

/-- Witness for C9 at a concrete off-centre 0-D two-atom cluster. -/
theorem wrap_or_center_idem_witness :
    wrap_or_center (wrap_or_center
      { Cluster.newC with atoms := [⟨0, ⟨1, 0, 0⟩⟩, ⟨1, ⟨3, 0, 0⟩⟩] }) =
      wrap_or_center { Cluster.newC with atoms := [⟨0, ⟨1, 0, 0⟩⟩, ⟨1, ⟨3, 0, 0⟩⟩] } ∧
    (wrap_or_center { Cluster.newC with atoms := [⟨0, ⟨1, 0, 0⟩⟩, ⟨1, ⟨3, 0, 0⟩⟩] }).atoms.length =
      ({ Cluster.newC with atoms := [⟨0, ⟨1, 0, 0⟩⟩, ⟨1, ⟨3, 0, 0⟩⟩] } : Cluster).atoms.length ∧
    ∀ i : ℕ,
      ((wrap_or_center
          { Cluster.newC with atoms := [⟨0, ⟨1, 0, 0⟩⟩, ⟨1, ⟨3, 0, 0⟩⟩] }).atoms[i]?).map
          Atom.element_id =
        (({ Cluster.newC with atoms := [⟨0, ⟨1, 0, 0⟩⟩, ⟨1, ⟨3, 0, 0⟩⟩] } : Cluster).atoms[i]?).map
          Atom.element_id :=
  wrap_or_center_idem { Cluster.newC with atoms := [⟨0, ⟨1, 0, 0⟩⟩, ⟨1, ⟨3, 0, 0⟩⟩] }
    (fun _ hl => Option.noConfusion hl)

/-! ### Claim C5 -/

theorem dedupGo_filter (pop : List Cluster) :
    ∀ seen, (dedupGo pop seen).filter specialKeep = pop.filter specialKeep := by
  induction pop with
  | nil => intro seen; rfl
  | cons c rest ih =>
    intro seen
    rcases hdrop : (c.status == ClusterStatus.Discarded || c.energy.isNone) with _ | _
    · have hdrop' := hdrop
      rw [Bool.or_eq_false_iff] at hdrop'
      rcases hhk : c.hash_key with _ | hash
      · have hkeep : specialKeep c = false := by simp [specialKeep, hhk]
        simp [dedupGo, hdrop, hhk, hkeep, ih]
      · rcases hspec : (hash == "INVALID" || hasSubstr hash "NAN") with _ | _
        · have hkeep : specialKeep c = false := by
            simp only [specialKeep, hhk, hspec]
            simp
          rcases hseen : seen.contains hash with _ | _
          · have hseen' : ¬ hash ∈ seen := by simpa using hseen
            simp [dedupGo, hdrop, hhk, hspec, hseen', hkeep, ih]
          · have hseen' : hash ∈ seen := by simpa using hseen
            simp [dedupGo, hdrop, hhk, hspec, hseen', hkeep, ih]
        · have hkeep : specialKeep c = true := by
            have h1 : (c.status != ClusterStatus.Discarded) = true := by
              simp [bne, hdrop'.1]
            have h2 : c.energy.isSome = true := by
              rcases he : c.energy with _ | e
              · rw [he] at hdrop'
                simp at hdrop'
              · simp [he]
            simp [specialKeep, h1, h2, hhk, hspec]
          simp [dedupGo, hdrop, hhk, hspec, hkeep, ih]
    · have hdrop' := hdrop
      simp only [Bool.or_eq_true] at hdrop'
      have hkeep : specialKeep c = false := by
        rcases hdrop' with h | h
        · have hst : c.status = ClusterStatus.Discarded := by simpa using h
          simp [specialKeep, hst]
        · have hen : c.energy = none := by
            rcases he : c.energy with _ | e
            · rfl
            · rw [he] at h
              simp at h
          simp [specialKeep, hen]
      simp [dedupGo, hdrop, hkeep, ih]

/-- C5 (amended): a cluster whose stored fingerprint is the exact string
`"INVALID"` or contains `"NAN"` (in particular the degenerate `"NAN_COORDS"`)
is always treated as unique: `are_duplicates` never reports it as a duplicate
of any cluster, and deduplication retains every such (non-`Discarded`,
energy-carrying) cluster.  Clusters with the degenerate fingerprints
`"EMPTY"` or `"INVALID_RADIUS"` are *not* protected — the guard compares with
the exact string `"INVALID"`, which `generate_hash_key` never produces — and
are deduplicated by ordinary string equality (see
`invalid_radius_deduplicated`). -/
theorem special_fingerprint_unique (c1 : Cluster) (h1 : String)
    (hh : c1.hash_key = some h1) (hspec : h1 = "INVALID" ∨ hasSubstr h1 "NAN" = true) :
    (∀ (c2 : Cluster) (tol : ℚ), are_duplicates c1 c2 tol = false) ∧
    (∀ pop : List Cluster,
        (deduplicate_population pop).1.filter specialKeep = pop.filter specialKeep) := by
  constructor
  · intro c2 tol
    rcases he1 : c1.energy with _ | e1
    · simp [are_duplicates, he1]
    · rcases he2 : c2.energy with _ | e2
      · simp [are_duplicates, he1, he2]
      · rcases hk2 : c2.hash_key with _ | h2
        · simp [are_duplicates, he1, he2, hh, hk2]
        · simp only [are_duplicates, he1, he2, hh, hk2]
          by_cases ht : tol < |e1 - e2|
          · rw [if_pos ht]
          · rw [if_neg ht]
            have hcond :
                (h1 == "INVALID" || h2 == "INVALID" || hasSubstr h1 "NAN" || hasSubstr h2 "NAN")
                  = true := by
              rcases hspec with h | h
              · subst h; simp
              · simp [h]
            rw [if_pos hcond]
  · intro pop
    rw [deduplicate_population]
    by_cases hlen : pop.length = 0
    · rw [if_pos hlen]
    · rw [if_neg hlen]
      exact dedupGo_filter pop []

/-- Witness for C5 (amended) at a cluster carrying the degenerate
`"NAN_COORDS"` fingerprint. -/
theorem special_fingerprint_unique_witness :
    (cNanKey.hash_key = some "NAN_COORDS" ∧
      ("NAN_COORDS" = "INVALID" ∨ hasSubstr "NAN_COORDS" "NAN" = true)) ∧
    (∀ (c2 : Cluster) (tol : ℚ), are_duplicates cNanKey c2 tol = false) ∧
    (∀ pop : List Cluster,
        (deduplicate_population pop).1.filter specialKeep = pop.filter specialKeep) :=
  ⟨⟨rfl, Or.inr (by decide)⟩,
   special_fingerprint_unique cNanKey "NAN_COORDS" rfl (Or.inr (by decide))⟩

/-- C5 counterexample: two distinct clusters both carrying the degenerate
`"INVALID_RADIUS"` fingerprint (the `generate_hash_key` return for
`cutoff ≤ 0`) with equal energies *are* reported as duplicates, and GA
deduplication drops the second one — the always-unique guard compares with the
exact string `"INVALID"`, which `generate_hash_key` never produces ("EMPTY"
fingerprints behave the same way).  This refutes the claim that every
degenerate-fingerprint cluster is treated as unique. -/
theorem invalid_radius_deduplicated :
    are_duplicates cInvRad1 cInvRad2 (1/100) = true ∧
    (deduplicate_population [cInvRad1, cInvRad2]).1 = [cInvRad1] := by
  constructor
  · simp only [are_duplicates, cInvRad1, cInvRad2, Cluster.newC]
    rw [if_neg (by norm_num)]
    rw [if_neg (by decide)]
    decide
  · rw [deduplicate_population]
    rw [if_neg (by decide)]
    simp only [dedupGo, cInvRad1, cInvRad2, Cluster.newC]
    rw [if_neg (by decide), if_neg (by decide), if_neg (by decide)]
    rw [if_neg (by decide), if_neg (by decide), if_pos (by decide)]

/-! ### Claim C6 -/

theorem wrap_or_center_energy (c : Cluster) : (wrap_or_center c).energy = c.energy := by
  rcases hc : c.lattice with _ | lat <;> rw [wrap_or_center, hc]

theorem adoptGeometry_energy (c geom : Cluster) : (adoptGeometry c geom).energy = c.energy := by
  rw [adoptGeometry, wrap_or_center_energy]

theorem bhAccept_inv (p : Params) (st : BHState) (trial : Cluster) (e_new : ℚ) (u : Bool)
    (htr : trial.energy = some e_new) (h : bhInvariant st) :
    bhInvariant (bhAccept p st trial e_new u) := by
  obtain ⟨be, we, hb, hw, hle⟩ := h
  rw [bhAccept]
  rcases hacc : (if e_new < st.walker.energy.getD f64MAX then true
      else if p.temperature ≤ 1 / 10 ^ (9 : ℕ) then false else u) with _ | _
  · rw [if_neg (by simp [hacc])]
    exact ⟨be, we, hb, hw, hle⟩
  · rw [if_pos (by simp [hacc])]
    rw [hb]
    show bhInvariant ⟨trial, if e_new < be then trial else st.best⟩
    by_cases hlt : e_new < be
    · rw [if_pos hlt]
      exact ⟨e_new, e_new, htr, htr, le_refl _⟩
    · rw [if_neg hlt]
      exact ⟨be, e_new, hb, htr, not_lt.mp hlt⟩

theorem bhStep_inv (p : Params) (grid : InteractionGrid) (st : BHState) (o : BHOracle)
    (h : bhInvariant st) : bhInvariant (bhStep p grid st o) := by
  rw [bhStep]
  split
  · exact h
  · split
    · exact h
    · split
      · dsimp only
        split
        · exact bhAccept_inv p st _ _ o.uphillAccept (by simp [adoptGeometry_energy]) h
        · exact h
      · exact bhAccept_inv p st _ _ o.uphillAccept rfl h

theorem bhRun_inv (p : Params) (grid : InteractionGrid) (st : BHState) (os : List BHOracle)
    (h : bhInvariant st) : bhInvariant (bhRun p grid st os) := by
  induction os generalizing st with
  | nil => exact h
  | cons o rest ih => exact ih _ (bhStep_inv p grid st o h)

theorem bhInit_inv (p : Params) (current : Cluster) (initEval : Option EvalResult)
    (st0 : BHState) (hinit : bhInit p current initEval = some st0) : bhInvariant st0 := by
  by_cases hsteps : p.bh_steps = 0
  · rw [bhInit.eq_def, if_pos hsteps] at hinit
    exact absurd hinit (by simp)
  · rcases he : current.energy with _ | e
    · rcases initEval with _ | res
      · simp [bhInit, hsteps, he] at hinit
      · rcases hrel : res.relaxed_cluster with _ | geom
        · simp only [bhInit, hsteps, if_false, he, Option.isNone_none, if_true, hrel,
            Option.map_some', Option.some.injEq, ite_false, ite_true] at hinit
          refine ⟨res.energy, res.energy, ?_, ?_, le_refl _⟩ <;> rw [← hinit]
        · by_cases hlen : geom.atoms.length = current.atoms.length
          · simp only [bhInit, hsteps, if_false, he, Option.isNone_none, if_true, hrel,
              hlen, Option.map_some', Option.some.injEq, ite_false, ite_true] at hinit
            refine ⟨res.energy, res.energy, ?_, ?_, le_refl _⟩ <;>
              rw [← hinit] <;>
              exact adoptGeometry_energy _ _
          · simp only [bhInit, hsteps, if_false, he, Option.isNone_none, if_true, hrel,
              hlen, Option.map_some', Option.some.injEq, ite_false, ite_true] at hinit
            refine ⟨res.energy, res.energy, ?_, ?_, le_refl _⟩ <;> rw [← hinit]
    · simp only [bhInit, hsteps, if_false, he, Option.isNone_some,
        Option.map_some', Option.some.injEq, Bool.false_eq_true, ite_false, ite_true] at hinit
      refine ⟨e, e, ?_, ?_, le_refl _⟩ <;> rw [← hinit] <;> exact he

/-- C6: throughout a basin-hopping run, once initialisation has succeeded
(`bhInit` returns a state), `best.energy ≤ walker.energy` holds after every
prefix of loop iterations, for every sequence of random draws, evaluator
responses and Metropolis coin flips. -/
theorem bh_best_le_walker (p : Params) (grid : InteractionGrid) (current : Cluster)
    (initEval : Option EvalResult) (st0 : BHState)
    (hinit : bhInit p current initEval = some st0) (os : List BHOracle) :
    ∃ be we, (bhRun p grid st0 os).best.energy = some be ∧
      (bhRun p grid st0 os).walker.energy = some we ∧ be ≤ we :=
  bhRun_inv p grid st0 os (bhInit_inv p current initEval st0 hinit)

/-- Witness for C6: a one-step run from a walker that already has energy 0,
with a failing evaluator response (the step is rejected). -/
theorem bh_best_le_walker_witness :
    bhInit pBH6 cBH6 none = some ⟨cBH6, cBH6⟩ ∧
    ∃ be we, (bhRun pBH6 gridBH6 ⟨cBH6, cBH6⟩ [oBH6]).best.energy = some be ∧
      (bhRun pBH6 gridBH6 ⟨cBH6, cBH6⟩ [oBH6]).walker.energy = some we ∧ be ≤ we :=
  ⟨rfl, bh_best_le_walker pBH6 gridBH6 cBH6 none ⟨cBH6, cBH6⟩ rfl [oBH6]⟩

/-! ### Claim C8 -/

theorem count_flatten_replicate (counts : List ℕ) (j : ℕ) :
    ∀ k, (((counts.enumFrom k).map (fun p => List.replicate p.2 p.1)).flatten.count j) =
      if k ≤ j ∧ j < k + counts.length then counts.getD (j - k) 0 else 0 := by
  induction counts with
  | nil =>
    intro k
    simp
  | cons c rest ih =>
    intro k
    simp only [List.enumFrom_cons, List.map_cons, List.flatten_cons, List.count_append,
      List.count_replicate, ih (k + 1), List.length_cons]
    by_cases hkj : j = k
    · subst hkj
      rw [if_pos (by simp), if_neg (by omega), if_pos (by omega), Nat.sub_self]
      simp
    · rw [if_neg (by simp only [beq_iff_eq]; omega)]
      by_cases hin : k + 1 ≤ j ∧ j < k + 1 + rest.length
      · rw [if_pos hin, if_pos (by omega)]
        have h2 : j - k = (j - (k + 1)) + 1 := by omega
        rw [h2]
        simp
      · rw [if_neg hin, if_neg (by omega)]

theorem count_buildMultiset (atom_counts : List ℕ) (j : ℕ) :
    (buildMultiset atom_counts).count j = atom_counts.getD j 0 := by
  have h := count_flatten_replicate atom_counts j 0
  rw [buildMultiset]
  show ((atom_counts.enumFrom 0).map (fun p => List.replicate p.2 p.1)).flatten.count j = _
  rw [h]
  by_cases hj : j < atom_counts.length
  · rw [if_pos (by omega)]
    simp
  · rw [if_neg (by omega)]
    rw [List.getD_eq_default]
    omega

theorem countId_map_elem (atoms : List Atom) (i : ℕ) :
    countId atoms i = (atoms.map Atom.element_id).count i := by
  rw [countId, List.count, List.countP_map]
  congr 1

theorem getD_append_lt {α : Type} (l l' : List α) (d : α) :
    ∀ i, i < l.length → (l ++ l').getD i d = l.getD i d := by
  induction l with
  | nil => intro i h; simp at h
  | cons a t ih =>
    intro i h
    cases i with
    | zero => rfl
    | succ i =>
      simp only [List.cons_append, List.getD_cons_succ]
      exact ih i (by simpa using h)

theorem getD_append_len {α : Type} (l : List α) (a d : α) :
    (l ++ [a]).getD l.length d = a := by
  induction l with
  | nil => rfl
  | cons b t ih =>
    rw [List.cons_append, List.length_cons, List.getD_cons_succ]
    exact ih

theorem getD_map_lt (f : Atom → Atom) (l : List Atom) (d : Atom) :
    ∀ i, i < l.length → (l.map f).getD i d = f (l.getD i d) := by
  induction l with
  | nil => intro i h; simp at h
  | cons a t ih =>
    intro i h
    cases i with
    | zero => rfl
    | succ i =>
      simp only [List.map_cons, List.getD_cons_succ]
      exact ih i (by simpa using h)

theorem getD_mem {α : Type} (l : List α) (d : α) : ∀ i, i < l.length → l.getD i d ∈ l := by
  induction l with
  | nil => intro i h; simp at h
  | cons a t ih =>
    intro i h
    cases i with
    | zero => exact List.mem_cons_self a t
    | succ i => exact List.mem_cons_of_mem a (ih i (by simpa using h))

theorem tryPlace_some_not_clash (grid : InteractionGrid) (placed : List Atom) (elem : ℕ)
    (cand : ℕ → Vec3) (pos : Vec3) (h : tryPlace grid placed elem cand = some pos) :
    clashWith grid placed elem pos = false := by
  rw [tryPlace] at h
  obtain ⟨a, ha, hfa⟩ := List.exists_of_findSome?_eq_some h
  by_cases hc : clashWith grid placed elem (cand a) = true
  · rw [if_pos hc] at hfa
    exact absurd hfa (by simp)
  · rw [if_neg hc] at hfa
    have hpos : cand a = pos := by simpa using hfa
    rw [← hpos]
    exact Bool.not_eq_true _ ▸ hc

theorem not_clash_separated (grid : InteractionGrid) (placed : List Atom) (elem : ℕ)
    (pos : Vec3) (h : clashWith grid placed elem pos = false) :
    ∀ ex ∈ placed, grid.get_collision_sq elem ex.element_id ≤ (pos.sub ex.position).normSq := by
  intro ex hex
  rw [clashWith, List.any_eq_false] at h
  have := h ex hex
  simp only [decide_eq_true_eq] at this
  exact not_lt.mp (by simpa using this)

theorem pairSeparated_append (grid : InteractionGrid) (acc : List Atom) (a : Atom)
    (hacc : pairSeparated grid acc)
    (hnew : ∀ ex ∈ acc,
      grid.get_collision_sq a.element_id ex.element_id ≤ (a.position.sub ex.position).normSq) :
    pairSeparated grid (acc ++ [a]) := by
  intro i j hij hj
  rw [List.length_append, List.length_singleton] at hj
  by_cases hjl : j < acc.length
  · rw [getD_append_lt _ _ _ _ hjl, getD_append_lt _ _ _ _ (by omega)]
    exact hacc i j hij hjl
  · have hjeq : j = acc.length := by omega
    subst hjeq
    rw [getD_append_len, getD_append_lt _ _ _ _ (by omega)]
    have hmem : acc.getD i ⟨0, Vec3.zero⟩ ∈ acc := getD_mem acc _ i (by omega)
    exact hnew _ hmem

theorem placeGo_separated (grid : InteractionGrid) (cand : ℕ → ℕ → Vec3) :
    ∀ (elems : List ℕ) (i : ℕ) (acc atoms : List Atom),
      pairSeparated grid acc →
      placeGo grid cand elems i acc = some atoms → pairSeparated grid atoms := by
  intro elems
  induction elems with
  | nil =>
    intro i acc atoms hacc hp
    rw [placeGo] at hp
    have : acc = atoms := by simpa using hp
    exact this ▸ hacc
  | cons e rest ih =>
    intro i acc atoms hacc hp
    rw [placeGo] at hp
    rcases htp : tryPlace grid acc e (cand i) with _ | pos
    · rw [htp] at hp
      exact absurd hp (by simp)
    · rw [htp] at hp
      refine ih (i + 1) (acc ++ [⟨e, pos⟩]) atoms ?_ hp
      refine pairSeparated_append grid acc ⟨e, pos⟩ hacc ?_
      exact not_clash_separated grid acc e pos (tryPlace_some_not_clash grid acc e (cand i) pos htp)

theorem placeGo_ids (grid : InteractionGrid) (cand : ℕ → ℕ → Vec3) :
    ∀ (elems : List ℕ) (i : ℕ) (acc atoms : List Atom),
      placeGo grid cand elems i acc = some atoms →
      atoms.map Atom.element_id = acc.map Atom.element_id ++ elems := by
  intro elems
  induction elems with
  | nil =>
    intro i acc atoms hp
    rw [placeGo] at hp
    have : acc = atoms := by simpa using hp
    rw [← this, List.append_nil]
  | cons e rest ih =>
    intro i acc atoms hp
    rw [placeGo] at hp
    rcases htp : tryPlace grid acc e (cand i) with _ | pos
    · rw [htp] at hp
      exact absurd hp (by simp)
    · rw [htp] at hp
      have := ih (i + 1) (acc ++ [⟨e, pos⟩]) atoms hp
      rw [this, List.map_append]
      simp

theorem centerAtoms_countId (l : List Atom) (i : ℕ) :
    countId (centerAtoms l) i = countId l i := by
  rcases he : l.isEmpty with _ | _
  · rw [centerAtoms_ne l he, countId, countId, List.countP_map]
    rfl
  · have : l = [] := by
      cases l with
      | nil => rfl
      | cons a t => simp [List.isEmpty] at he
    rw [this]
    rfl

theorem sub_sub_cancel_vec (a b c : Vec3) : (a.sub c).sub (b.sub c) = a.sub b := by
  simp only [Vec3.sub, Vec3.mk.injEq]
  refine ⟨by ring, by ring, by ring⟩

theorem centerAtoms_sep (grid : InteractionGrid) (l : List Atom)
    (h : pairSeparated grid l) : pairSeparated grid (centerAtoms l) := by
  rcases he : l.isEmpty with _ | _
  · rw [centerAtoms_ne l he]
    intro i j hij hj
    rw [List.length_map] at hj
    rw [getD_map_lt _ _ _ j hj, getD_map_lt _ _ _ i (by omega)]
    simp only [sub_sub_cancel_vec]
    exact h i j hij hj
  · have : l = [] := by
      cases l with
      | nil => rfl
      | cons a t => simp [List.isEmpty] at he
    rw [this]
    exact fun i j hij hj => absurd hj (Nat.not_lt_zero j)

theorem tryPlace_none_iff (grid : InteractionGrid) (placed : List Atom) (elem : ℕ)
    (cand : ℕ → Vec3) :
    tryPlace grid placed elem cand = none ↔
      ∀ t, t < 100 → clashWith grid placed elem (cand t) = true := by
  rw [tryPlace, List.findSome?_eq_none_iff]
  constructor
  · intro h t ht
    have := h t (List.mem_range.mpr ht)
    by_cases hc : clashWith grid placed elem (cand t) = true
    · exact hc
    · rw [if_neg hc] at this
      exact absurd this (by simp)
  · intro h a ha
    rw [if_pos (h a (List.mem_range.mp ha))]

theorem placeGo_none_iff (grid : InteractionGrid) (cand : ℕ → ℕ → Vec3) :
    ∀ (elems : List ℕ) (i : ℕ) (acc : List Atom),
      placeGo grid cand elems i acc = none ↔
        ∃ k, k < elems.length ∧ ∃ acc',
          placeGo grid cand (elems.take k) i acc = some acc' ∧
          tryPlace grid acc' (elems.getD k 0) (cand (i + k)) = none := by
  intro elems
  induction elems with
  | nil =>
    intro i acc
    constructor
    · intro h
      rw [placeGo] at h
      exact absurd h (by simp)
    · rintro ⟨k, hk, _⟩
      exact absurd hk (by simp)
  | cons e rest ih =>
    intro i acc
    rw [placeGo]
    rcases htp : tryPlace grid acc e (cand i) with _ | pos
    · constructor
      · intro _
        refine ⟨0, by simp, acc, rfl, ?_⟩
        simpa using htp
      · intro _
        rfl
    · constructor
      · intro h
        have h' := (ih (i + 1) (acc ++ [⟨e, pos⟩])).mp h
        obtain ⟨k, hk, acc', hpg, htf⟩ := h'
        refine ⟨k + 1, by simpa using Nat.succ_lt_succ hk, acc', ?_, ?_⟩
        · rw [List.take_succ_cons, placeGo, htp]
          exact hpg
        · rw [List.getD_cons_succ, show i + (k + 1) = i + 1 + k from by omega]
          exact htf
      · rintro ⟨k, hk, acc', hpg, htf⟩
        cases k with
        | zero =>
          rw [List.take_zero, placeGo] at hpg
          have hacc : acc = acc' := by simpa using hpg
          rw [← hacc, List.getD_cons_zero, Nat.add_zero, htp] at htf
          exact absurd htf (by simp)
        | succ k =>
          rw [List.take_succ_cons, placeGo, htp] at hpg
          refine (ih (i + 1) (acc ++ [⟨e, pos⟩])).mpr ⟨k, by simpa using Nat.lt_of_succ_lt_succ hk, acc', hpg, ?_⟩
          rw [List.getD_cons_succ, show i + (k + 1) = i + 1 + k from by omega] at htf
          exact htf

/-- C8: for every counts vector, box half-extent, interaction grid (symmetric,
as every grid built by `InteractionGrid::new` is) and every random draw
sequence whose shuffle really permutes its input: when `Cluster::new_random`
returns `Some c`, the cluster `c` has per-species counts exactly equal to the
input counts, every pair of its atoms is at least the grid threshold apart in
squared Euclidean distance, the sum of its positions (hence its geometric
centroid) is zero, its status is `Born` (and it is lattice-free); and it
returns `None` exactly when, after some prefix of successful placements, the
next atom clashes on all 100 candidate positions. -/
theorem new_random_spec (atom_counts : List ℕ) (box_size : ℚ) (grid : InteractionGrid)
    (d : RandomDraws) (hshuf : ∀ l, (d.shuffle l).Perm l)
    (hsym : ∀ i j, grid.get_collision_sq i j = grid.get_collision_sq j i) :
    (∀ c, Cluster.new_random atom_counts box_size grid d = some c →
      (∀ i, countId c.atoms i = atom_counts.getD i 0) ∧
      (∀ i j, i < c.atoms.length → j < c.atoms.length → i ≠ j →
        grid.get_collision_sq ((c.atoms.getD i ⟨0, Vec3.zero⟩).element_id)
            ((c.atoms.getD j ⟨0, Vec3.zero⟩).element_id) ≤
          (((c.atoms.getD i ⟨0, Vec3.zero⟩).position).sub
            ((c.atoms.getD j ⟨0, Vec3.zero⟩).position)).normSq) ∧
      sumPos c.atoms = Vec3.zero ∧ c.status = ClusterStatus.Born ∧ c.lattice = none) ∧
    (Cluster.new_random atom_counts box_size grid d = none ↔
      ∃ k, k < (d.shuffle (buildMultiset atom_counts)).length ∧
        ∃ acc, placeGo grid d.candPos ((d.shuffle (buildMultiset atom_counts)).take k) 0 []
            = some acc ∧
          ∀ t, t < 100 →
            clashWith grid acc ((d.shuffle (buildMultiset atom_counts)).getD k 0)
              (d.candPos k t) = true) := by
  constructor
  · intro c hc
    rcases hp : placeGo grid d.candPos (d.shuffle (buildMultiset atom_counts)) 0 [] with _ | placed
    · rw [Cluster.new_random, hp] at hc
      exact absurd hc (by simp)
    · rw [Cluster.new_random, hp] at hc
      have hc' : ({ Cluster.newC with atoms := centerAtoms placed } : Cluster) = c := by
        simpa using hc
      have hids := placeGo_ids grid d.candPos _ 0 [] placed hp
      simp only [List.map_nil, List.nil_append] at hids
      refine ⟨?_, ?_, ?_, ?_, ?_⟩
      · intro i
        rw [← hc']
        show countId (centerAtoms placed) i = _
        rw [centerAtoms_countId, countId_map_elem, hids,
          (hshuf (buildMultiset atom_counts)).count_eq, count_buildMultiset]
      · intro i j hi hj hij
        rw [← hc'] at hi hj ⊢
        have hsep : pairSeparated grid (centerAtoms placed) :=
          centerAtoms_sep grid placed
            (placeGo_separated grid d.candPos _ 0 [] placed
              (fun i j hij hj => absurd hj (Nat.not_lt_zero j)) hp)
        show grid.get_collision_sq _ _ ≤ _
        rcases Nat.lt_or_ge i j with hlt | hge
        · have := hsep i j hlt hj
          rw [hsym]
          calc grid.get_collision_sq
                (((centerAtoms placed).getD j ⟨0, Vec3.zero⟩).element_id)
                (((centerAtoms placed).getD i ⟨0, Vec3.zero⟩).element_id) ≤
              ((((centerAtoms placed).getD j ⟨0, Vec3.zero⟩).position).sub
                (((centerAtoms placed).getD i ⟨0, Vec3.zero⟩).position)).normSq := this
            _ = ((((centerAtoms placed).getD i ⟨0, Vec3.zero⟩).position).sub
                (((centerAtoms placed).getD j ⟨0, Vec3.zero⟩).position)).normSq := by
                simp only [Vec3.sub, Vec3.normSq]
                ring
        · have hlt : j < i := by omega
          have := hsep j i hlt hi
          exact this
      · rw [← hc']
        exact centerAtoms_sum placed
      · rw [← hc']
        rfl
      · rw [← hc']
        rfl
  · rcases hp : placeGo grid d.candPos (d.shuffle (buildMultiset atom_counts)) 0 [] with _ | placed
    · constructor
      · intro _
        have h' := (placeGo_none_iff grid d.candPos _ 0 []).mp hp
        obtain ⟨k, hk, acc, hpg, htf⟩ := h'
        rw [Nat.zero_add] at htf
        exact ⟨k, hk, acc, hpg, (tryPlace_none_iff grid acc _ _).mp htf⟩
      · intro _
        rw [Cluster.new_random, hp]
    · constructor
      · intro h
        rw [Cluster.new_random, hp] at h
        exact absurd h (by simp)
      · rintro ⟨k, hk, acc, hpg, htf⟩
        have : placeGo grid d.candPos (d.shuffle (buildMultiset atom_counts)) 0 [] = none := by
          refine (placeGo_none_iff grid d.candPos _ 0 []).mpr ⟨k, hk, acc, hpg, ?_⟩
          rw [Nat.zero_add]
          exact (tryPlace_none_iff grid acc _ _).mpr htf
        rw [hp] at this
        exact absurd this (by simp)

/-- Witness for C8: a one-species, one-atom generation that succeeds on the
first attempt; the placed atom is centred to the origin. -/
theorem new_random_spec_witness :
    (∀ l, (rdW.shuffle l).Perm l) ∧
    (∀ i j, gridW.get_collision_sq i j = gridW.get_collision_sq j i) ∧
    Cluster.new_random [1] 10 gridW rdW = some cW ∧
    ((∀ i, countId cW.atoms i = [1].getD i 0) ∧
      (∀ i j, i < cW.atoms.length → j < cW.atoms.length → i ≠ j →
        gridW.get_collision_sq ((cW.atoms.getD i ⟨0, Vec3.zero⟩).element_id)
            ((cW.atoms.getD j ⟨0, Vec3.zero⟩).element_id) ≤
          (((cW.atoms.getD i ⟨0, Vec3.zero⟩).position).sub
            ((cW.atoms.getD j ⟨0, Vec3.zero⟩).position)).normSq) ∧
      sumPos cW.atoms = Vec3.zero ∧ cW.status = ClusterStatus.Born ∧ cW.lattice = none) := by
  have hshuf : ∀ l : List ℕ, (rdW.shuffle l).Perm l := fun l => List.Perm.refl l
  have hsym : ∀ i j, gridW.get_collision_sq i j = gridW.get_collision_sq j i := by
    intro i j
    rw [InteractionGrid.get_collision_sq, InteractionGrid.get_collision_sq]
    have : i * gridW.num_species + j = j * gridW.num_species + i := by
      show i * 1 + j = j * 1 + i
      omega
    rw [this]
  have hcenter : centerAtoms [⟨0, (⟨7, 0, 0⟩ : Vec3)⟩] = [⟨0, ⟨0, 0, 0⟩⟩] := by
    rw [centerAtoms_ne [⟨0, (⟨7, 0, 0⟩ : Vec3)⟩] rfl]
    simp only [List.map_cons, List.map_nil, sumPos, List.foldl_cons, List.foldl_nil,
      List.length_cons, List.length_nil]
    norm_num [Vec3.add, Vec3.zero, Vec3.smul, Vec3.sub]
  have hW : Cluster.new_random [1] 10 gridW rdW = some cW := by
    show some { Cluster.newC with atoms := centerAtoms [⟨0, ⟨7, 0, 0⟩⟩] } = some cW
    rw [hcenter]
    rfl
  exact ⟨hshuf, hsym, hW, (new_random_spec [1] 10 gridW rdW hshuf hsym).1 cW hW⟩

/-! ### Claim C3 -/

theorem Mat3.mul_idM (A : Mat3) : A.mul Mat3.idM = A := by
  cases A
  simp only [Mat3.mul, Mat3.idM, Mat3.mk.injEq]
  refine ⟨by ring, by ring, by ring, by ring, by ring, by ring, by ring, by ring, by ring⟩

theorem Mat3.traceM_mul_comm (A B : Mat3) : (A.mul B).traceM = (B.mul A).traceM := by
  simp only [Mat3.mul, Mat3.traceM]
  ring

theorem Mat3.det_idM : Mat3.idM.det = 1 := by
  simp only [Mat3.det, Mat3.idM]
  norm_num

theorem inertiaTensorAt_eq (r : Vec3) :
    inertiaTensorAt r = (Mat3.smulM r.normSq Mat3.idM).subM (outerProd r r) := by
  simp only [inertiaTensorAt, Mat3.smulM, Mat3.idM, Mat3.subM, outerProd, Vec3.normSq,
    Mat3.mk.injEq]
  refine ⟨by ring, by ring, by ring, by ring, by ring, by ring, by ring, by ring, by ring⟩

theorem outerProd_conj (R : Mat3) (u v : Vec3) :
    outerProd (R.mv u) (R.mv v) = R.mul ((outerProd u v).mul R.transposeM) := by
  simp only [outerProd, Mat3.mv, Mat3.mul, Mat3.transposeM, Mat3.mk.injEq]
  refine ⟨by ring, by ring, by ring, by ring, by ring, by ring, by ring, by ring, by ring⟩

theorem Mat3.mul_subM_left (A B C : Mat3) : A.mul (B.subM C) = (A.mul B).subM (A.mul C) := by
  simp only [Mat3.mul, Mat3.subM, Mat3.mk.injEq]
  refine ⟨by ring, by ring, by ring, by ring, by ring, by ring, by ring, by ring, by ring⟩

theorem Mat3.subM_mul_right (A B C : Mat3) : (B.subM C).mul A = (B.mul A).subM (C.mul A) := by
  simp only [Mat3.mul, Mat3.subM, Mat3.mk.injEq]
  refine ⟨by ring, by ring, by ring, by ring, by ring, by ring, by ring, by ring, by ring⟩

theorem Mat3.smulM_mul_left (q : ℚ) (A B : Mat3) : (Mat3.smulM q A).mul B = Mat3.smulM q (A.mul B) := by
  simp only [Mat3.mul, Mat3.smulM, Mat3.mk.injEq]
  refine ⟨by ring, by ring, by ring, by ring, by ring, by ring, by ring, by ring, by ring⟩

theorem Mat3.mul_smulM_right (q : ℚ) (A B : Mat3) : A.mul (Mat3.smulM q B) = Mat3.smulM q (A.mul B) := by
  simp only [Mat3.mul, Mat3.smulM, Mat3.mk.injEq]
  refine ⟨by ring, by ring, by ring, by ring, by ring, by ring, by ring, by ring, by ring⟩

theorem Mat3.idM_mul (A : Mat3) : Mat3.idM.mul A = A := by
  cases A
  simp only [Mat3.mul, Mat3.idM, Mat3.mk.injEq]
  refine ⟨by ring, by ring, by ring, by ring, by ring, by ring, by ring, by ring, by ring⟩

theorem inertiaTensorAt_conj (R : Mat3) (hO : R.transposeM.mul R = Mat3.idM) (r : Vec3) :
    inertiaTensorAt (R.mv r) = R.mul ((inertiaTensorAt r).mul R.transposeM) := by
  have hO2 : R.mul R.transposeM = Mat3.idM := Mat3.mul_one_comm _ _ hO
  rw [inertiaTensorAt_eq, inertiaTensorAt_eq, Mat3.normSq_mv R hO]
  rw [Mat3.subM_mul_right, Mat3.mul_subM_left, ← outerProd_conj]
  congr 1
  rw [Mat3.smulM_mul_left, Mat3.mul_smulM_right, Mat3.idM_mul, hO2]

theorem Mat3.zeroM_mul (A : Mat3) : Mat3.zeroM.mul A = Mat3.zeroM := by
  simp only [Mat3.mul, Mat3.zeroM, Mat3.mk.injEq]
  refine ⟨by ring, by ring, by ring, by ring, by ring, by ring, by ring, by ring, by ring⟩

theorem Mat3.mul_zeroM (A : Mat3) : A.mul Mat3.zeroM = Mat3.zeroM := by
  simp only [Mat3.mul, Mat3.zeroM, Mat3.mk.injEq]
  refine ⟨by ring, by ring, by ring, by ring, by ring, by ring, by ring, by ring, by ring⟩

theorem Mat3.addM_zeroM (A : Mat3) : A.addM Mat3.zeroM = A := by
  cases A
  simp only [Mat3.addM, Mat3.zeroM, Mat3.mk.injEq]
  refine ⟨by ring, by ring, by ring, by ring, by ring, by ring, by ring, by ring, by ring⟩

theorem Mat3.zeroM_addM (A : Mat3) : Mat3.zeroM.addM A = A := by
  cases A
  simp only [Mat3.addM, Mat3.zeroM, Mat3.mk.injEq]
  refine ⟨by ring, by ring, by ring, by ring, by ring, by ring, by ring, by ring, by ring⟩

theorem Mat3.addM_assoc (A B C : Mat3) : (A.addM B).addM C = A.addM (B.addM C) := by
  simp only [Mat3.addM, Mat3.mk.injEq]
  refine ⟨by ring, by ring, by ring, by ring, by ring, by ring, by ring, by ring, by ring⟩

theorem Mat3.conj_addM (R X Y : Mat3) :
    R.mul ((X.addM Y).mul R.transposeM) =
      (R.mul (X.mul R.transposeM)).addM (R.mul (Y.mul R.transposeM)) := by
  simp only [Mat3.mul, Mat3.addM, Mat3.transposeM, Mat3.mk.injEq]
  refine ⟨by ring, by ring, by ring, by ring, by ring, by ring, by ring, by ring, by ring⟩

theorem foldlAddM_acc (f : Atom → Mat3) (l : List Atom) (acc : Mat3) :
    l.foldl (fun m a => m.addM (f a)) acc = acc.addM (l.foldl (fun m a => m.addM (f a)) Mat3.zeroM) := by
  induction l generalizing acc with
  | nil => simp [Mat3.addM_zeroM]
  | cons a rest ih =>
    simp only [List.foldl_cons]
    rw [ih, ih (Mat3.zeroM.addM (f a)), Mat3.zeroM_addM, Mat3.addM_assoc]

theorem foldl_conj (R : Mat3) (h : Atom → Mat3) (l : List Atom) :
    l.foldl (fun m a => m.addM (R.mul ((h a).mul R.transposeM))) Mat3.zeroM =
      R.mul ((l.foldl (fun m a => m.addM (h a)) Mat3.zeroM).mul R.transposeM) := by
  induction l with
  | nil =>
    rw [List.foldl_nil, List.foldl_nil, Mat3.zeroM_mul, Mat3.mul_zeroM]
  | cons a rest ih =>
    rw [List.foldl_cons, List.foldl_cons, foldlAddM_acc, foldlAddM_acc h,
      Mat3.zeroM_addM, Mat3.zeroM_addM, Mat3.conj_addM, ih]

theorem affine_diff (R : Mat3) (t p c : Vec3) :
    ((R.mv p).add t).sub ((R.mv c).add t) = R.mv (p.sub c) := by
  simp only [Mat3.mv, Vec3.add, Vec3.sub, Vec3.mk.injEq]
  refine ⟨by ring, by ring, by ring⟩

theorem sumPos_map_affine (R : Mat3) (t : Vec3) (l : List Atom) :
    sumPos (l.map fun a => { a with position := (R.mv a.position).add t }) =
      (R.mv (sumPos l)).add (Vec3.smul (l.length : ℚ) t) := by
  induction l with
  | nil =>
    simp only [List.map_nil, sumPos, List.foldl_nil, List.length_nil, Nat.cast_zero]
    rw [Mat3.mv_zero]
    simp only [Vec3.add, Vec3.smul, Vec3.zero, Vec3.mk.injEq]
    refine ⟨by ring, by ring, by ring⟩
  | cons a rest ih =>
    simp only [List.map_cons, sumPos_cons, ih, List.length_cons]
    simp only [Mat3.mv, Vec3.add, Vec3.smul, Vec3.mk.injEq]
    push_cast
    refine ⟨by ring, by ring, by ring⟩

theorem geomCenter_affine (R : Mat3) (t : Vec3) (l : List Atom) (hn : l.length ≠ 0) :
    geomCenter (l.map fun a => { a with position := (R.mv a.position).add t }) =
      (R.mv (geomCenter l)).add t := by
  have hq : (l.length : ℚ) ≠ 0 := by exact_mod_cast hn
  rw [geomCenter, geomCenter, List.length_map, sumPos_map_affine]
  rcases hs : sumPos l with ⟨sx, sy, sz⟩
  simp only [Vec3.smul, Vec3.add, Mat3.mv, Vec3.mk.injEq]
  refine ⟨?_, ?_, ?_⟩ <;> field_simp <;> ring

theorem inertiaTensor_conj (c : Cluster) (R : Mat3) (t : Vec3)
    (hO : R.transposeM.mul R = Mat3.idM) (hn : c.atoms.length ≠ 0) :
    inertiaTensor (rigidTransform R t c) = R.mul ((inertiaTensor c).mul R.transposeM) := by
  simp only [inertiaTensor, rigidTransform]
  rw [geomCenter_affine R t c.atoms hn, List.foldl_map]
  dsimp only
  simp only [affine_diff, inertiaTensorAt_conj R hO]
  exact foldl_conj R _ c.atoms

theorem pmoi_data_invariant (c : Cluster) (R : Mat3) (t : Vec3)
    (hO : R.transposeM.mul R = Mat3.idM) :
    calculate_pmoi_data (rigidTransform R t c) = calculate_pmoi_data c := by
  have hL : (rigidTransform R t c).atoms.length = c.atoms.length := by
    simp [rigidTransform]
  simp only [calculate_pmoi_data]
  rw [hL]
  by_cases h2 : c.atoms.length < 2
  · rw [if_pos h2, if_pos h2]
  · rw [if_neg h2, if_neg h2]
    have hn : c.atoms.length ≠ 0 := by omega
    rw [inertiaTensor_conj c R t hO hn]
    set T := inertiaTensor c with hT
    have htr : (R.mul (T.mul R.transposeM)).traceM = T.traceM := by
      rw [Mat3.traceM_mul_comm, Mat3.mul_assoc3, hO, Mat3.mul_idM]
    have hsq : (R.mul (T.mul R.transposeM)).mul (R.mul (T.mul R.transposeM)) =
        R.mul ((T.mul T).mul R.transposeM) := by
      rw [Mat3.mul_assoc3, ← Mat3.mul_assoc3 (T.mul R.transposeM) R (T.mul R.transposeM),
        Mat3.mul_assoc3 T R.transposeM R, hO, Mat3.mul_idM,
        ← Mat3.mul_assoc3 T T R.transposeM]
    have htr2 : (R.mul ((T.mul T).mul R.transposeM)).traceM = (T.mul T).traceM := by
      rw [Mat3.traceM_mul_comm, Mat3.mul_assoc3, hO, Mat3.mul_idM]
    have hdet1 : R.transposeM.det * R.det = 1 := by
      rw [← Mat3.det_mul, hO, Mat3.det_idM]
    have hdet : (R.mul (T.mul R.transposeM)).det = T.det := by
      rw [Mat3.det_mul, Mat3.det_mul]
      calc R.det * (T.det * R.transposeM.det)
          = T.det * (R.transposeM.det * R.det) := by ring
        _ = T.det := by rw [hdet1, mul_one]
    rw [htr, hsq, htr2, hdet]

theorem distance_sq_eq_of_sub_eq (p1 p2 q1 q2 : Vec3) (lat : Option LatticeQ)
    (h : p2.sub p1 = q2.sub q1) : distance_sq p1 p2 lat = distance_sq q1 q2 lat := by
  cases lat with
  | none => simp only [distance_sq]; rw [h]
  | some l => simp only [distance_sq]; rw [h]

theorem adjacency_free_invariant (c : Cluster) (R : Mat3) (t : Vec3) (cutoff : ℚ)
    (hO : R.transposeM.mul R = Mat3.idM) (hlat : c.lattice = none) :
    adjacencyMatrix (rigidTransform R t c) cutoff = adjacencyMatrix c cutoff := by
  simp only [adjacencyMatrix, rigidTransform, List.length_map]
  refine List.map_congr_left ?_
  intro i hi
  refine List.map_congr_left ?_
  intro j hj
  rw [List.mem_range] at hi hj
  by_cases hij : i = j
  · rw [if_pos hij, if_pos hij]
  · rw [if_neg hij, if_neg hij, decide_eq_decide,
      getD_map_lt (fun a => ({ a with position := (R.mv a.position).add t } : Atom))
        c.atoms ⟨0, Vec3.zero⟩ i hi,
      getD_map_lt (fun a => ({ a with position := (R.mv a.position).add t } : Atom))
        c.atoms ⟨0, Vec3.zero⟩ j hj]
    dsimp only
    rw [hlat]
    have hd : distance_sq ((R.mv (c.atoms.getD i ⟨0, Vec3.zero⟩).position).add t)
        ((R.mv (c.atoms.getD j ⟨0, Vec3.zero⟩).position).add t) none =
        distance_sq (c.atoms.getD i ⟨0, Vec3.zero⟩).position
          (c.atoms.getD j ⟨0, Vec3.zero⟩).position none := by
      simp only [distance_sq]
      rw [affine_diff, Mat3.normSq_mv R hO]
    rw [hd]

theorem adjacency_transl_invariant (c : Cluster) (t : Vec3) (cutoff : ℚ) :
    adjacencyMatrix (rigidTransform Mat3.idM t c) cutoff = adjacencyMatrix c cutoff := by
  simp only [adjacencyMatrix, rigidTransform, List.length_map]
  refine List.map_congr_left ?_
  intro i hi
  refine List.map_congr_left ?_
  intro j hj
  rw [List.mem_range] at hi hj
  by_cases hij : i = j
  · rw [if_pos hij, if_pos hij]
  · rw [if_neg hij, if_neg hij, decide_eq_decide,
      getD_map_lt (fun a => ({ a with position := (Mat3.idM.mv a.position).add t } : Atom))
        c.atoms ⟨0, Vec3.zero⟩ i hi,
      getD_map_lt (fun a => ({ a with position := (Mat3.idM.mv a.position).add t } : Atom))
        c.atoms ⟨0, Vec3.zero⟩ j hj]
    dsimp only
    have hsub : ((Mat3.idM.mv (c.atoms.getD j ⟨0, Vec3.zero⟩).position).add t).sub
        ((Mat3.idM.mv (c.atoms.getD i ⟨0, Vec3.zero⟩).position).add t) =
        ((c.atoms.getD j ⟨0, Vec3.zero⟩).position).sub
          ((c.atoms.getD i ⟨0, Vec3.zero⟩).position) := by
      rw [affine_diff, Mat3.mv_id]
    rw [distance_sq_eq_of_sub_eq _ _ _ _ c.lattice hsub]

theorem adjacencyMatrix_two (c : Cluster) (cutoff : ℚ) (a0 a1 : Atom)
    (h : c.atoms = [a0, a1]) :
    adjacencyMatrix c cutoff =
      [[false, decide (distance_sq a0.position a1.position c.lattice < cutoff * cutoff)],
       [decide (distance_sq a1.position a0.position c.lattice < cutoff * cutoff), false]] := by
  have hrange : List.range (([a0, a1] : List Atom).length) = [0, 1] := rfl
  simp only [adjacencyMatrix, h, hrange, List.map_cons, List.map_nil,
    List.getD_cons_zero, List.getD_cons_succ]
  norm_num

/-- **C3** (amended): the fingerprint data of `generate_hash_key`
(degenerate classes, adjacency matrix, PMOI spectral data) is invariant
under every rigid motion `p ↦ R·p + t` (orthogonal `R`) of a free
(non-periodic) cluster, and under every pure translation of any cluster —
but not, in general, under rotation of a periodic cluster (see the
counterexample). -/
theorem hashKeyData_rigid_invariant (c : Cluster) (R : Mat3) (t : Vec3) (cutoff : ℚ)
    (hO : R.transposeM.mul R = Mat3.idM) :
    (c.lattice = none →
      hashKeyData (rigidTransform R t c) cutoff = hashKeyData c cutoff) ∧
    hashKeyData (rigidTransform Mat3.idM t c) cutoff = hashKeyData c cutoff := by
  have hid : Mat3.idM.transposeM.mul Mat3.idM = Mat3.idM := by
    simp only [Mat3.transposeM, Mat3.idM, Mat3.mul, Mat3.mk.injEq]
    norm_num
  have main : ∀ R' t', R'.transposeM.mul R' = Mat3.idM →
      adjacencyMatrix (rigidTransform R' t' c) cutoff = adjacencyMatrix c cutoff →
      hashKeyData (rigidTransform R' t' c) cutoff = hashKeyData c cutoff := by
    intro R' t' hO' hadj
    have hL : (rigidTransform R' t' c).atoms.length = c.atoms.length := by
      simp [rigidTransform]
    simp only [hashKeyData]
    rw [hL]
    by_cases h0 : c.atoms.length = 0
    · rw [if_pos h0, if_pos h0]
    · rw [if_neg h0, if_neg h0]
      by_cases hcut : cutoff ≤ 0
      · rw [if_pos hcut, if_pos hcut]
      · rw [if_neg hcut, if_neg hcut, hadj, pmoi_data_invariant c R' t' hO']
  exact ⟨fun hlat => main R t hO (adjacency_free_invariant c R t cutoff hO hlat),
    main Mat3.idM t hid (adjacency_transl_invariant c t cutoff)⟩

/-- Witness for `hashKeyData_rigid_invariant`: the free two-atom cluster
`cC3w`, rotated by the orthogonal matrix `R345` (or not) and translated by
`(1, 2, 3)`, keeps its fingerprint data. -/
theorem hashKeyData_rigid_invariant_witness :
    hashKeyData (rigidTransform R345 ⟨1, 2, 3⟩ cC3w) (3/2) = hashKeyData cC3w (3/2) ∧
    hashKeyData (rigidTransform Mat3.idM ⟨1, 2, 3⟩ cC3w) (3/2) = hashKeyData cC3w (3/2) := by
  have h := hashKeyData_rigid_invariant cC3w R345 ⟨1, 2, 3⟩ (3/2)
    (by simp only [R345, Mat3.transposeM, Mat3.mul, Mat3.idM, Mat3.mk.injEq]; norm_num)
  exact ⟨h.1 rfl, h.2⟩

/-- Counterexample to fingerprint rotation-invariance for periodic clusters:
`cC3` is a two-atom cluster in a cubic box of edge 3 whose bond crosses the
cell boundary (minimum-image bond length 0.9 < cutoff 1.5). Rotating it by
the orthogonal matrix `R345` moves the pair so that its minimum image is
`√3.33 > 1.5`: the adjacency matrix — and with it the graph-spectrum part of
the hash, witnessed by the spectral invariant `adjDet2` — changes, so
`generate_hash_key` is not rotation-invariant in the periodic case. -/
theorem hash_rotation_periodic_counterexample :
    R345.transposeM.mul R345 = Mat3.idM ∧
    latC3.WellFormed ∧
    adjacencyMatrix cC3 (3/2) = [[false, true], [true, false]] ∧
    adjacencyMatrix (rigidTransform R345 Vec3.zero cC3) (3/2) =
      [[false, false], [false, false]] ∧
    adjDet2 [[false, true], [true, false]] ≠ adjDet2 [[false, false], [false, false]] ∧
    hashKeyData (rigidTransform R345 Vec3.zero cC3) (3/2) ≠ hashKeyData cC3 (3/2) := by
  have hr0 : rustRound (0 : ℚ) = 0 := by
    rw [rustRound, if_pos le_rfl, round_eq]
    norm_num [Int.floor_eq_iff]
  have hr7 : rustRound (7/10 : ℚ) = 1 := by
    rw [rustRound, if_pos (by norm_num), round_eq]
    norm_num [Int.floor_eq_iff]
  have hrm7 : rustRound (-(7/10) : ℚ) = -1 := by
    rw [rustRound, if_neg (by norm_num), round_eq]
    norm_num [Int.floor_eq_iff]
  have hr21 : rustRound (21/50 : ℚ) = 0 := by
    rw [rustRound, if_pos (by norm_num), round_eq]
    norm_num [Int.floor_eq_iff]
  have hrm21 : rustRound (-(21/50) : ℚ) = 0 := by
    rw [rustRound, if_neg (by norm_num), round_eq]
    norm_num [Int.floor_eq_iff]
  have hr14 : rustRound (14/25 : ℚ) = 1 := by
    rw [rustRound, if_pos (by norm_num), round_eq]
    norm_num [Int.floor_eq_iff]
  have hrm14 : rustRound (-(14/25) : ℚ) = -1 := by
    rw [rustRound, if_neg (by norm_num), round_eq]
    norm_num [Int.floor_eq_iff]
  have hd01 : distance_sq (⟨0, 0, 0⟩ : Vec3) ⟨21/10, 0, 0⟩ (some latC3) = 81/100 := by
    rw [distance_sq_some]
    have hfrac : latC3.inverse.mv ((⟨21/10, 0, 0⟩ : Vec3).sub ⟨0, 0, 0⟩) =
        ⟨7/10, 0, 0⟩ := by
      simp only [latC3, Mat3.mv, Vec3.sub, Vec3.mk.injEq]
      norm_num
    rw [hfrac]
    dsimp only
    rw [hr7, hr0]
    simp only [latC3, Mat3.mv, Vec3.normSq]
    norm_num
  have hd10 : distance_sq (⟨21/10, 0, 0⟩ : Vec3) ⟨0, 0, 0⟩ (some latC3) = 81/100 := by
    rw [distance_sq_some]
    have hfrac : latC3.inverse.mv ((⟨0, 0, 0⟩ : Vec3).sub ⟨21/10, 0, 0⟩) =
        ⟨-(7/10), 0, 0⟩ := by
      simp only [latC3, Mat3.mv, Vec3.sub, Vec3.mk.injEq]
      norm_num
    rw [hfrac]
    dsimp only
    rw [hrm7, hr0]
    simp only [latC3, Mat3.mv, Vec3.normSq]
    norm_num
  have hdT01 : distance_sq (⟨0, 0, 0⟩ : Vec3) ⟨63/50, 42/25, 0⟩ (some latC3) = 333/100 := by
    rw [distance_sq_some]
    have hfrac : latC3.inverse.mv ((⟨63/50, 42/25, 0⟩ : Vec3).sub ⟨0, 0, 0⟩) =
        ⟨21/50, 14/25, 0⟩ := by
      simp only [latC3, Mat3.mv, Vec3.sub, Vec3.mk.injEq]
      norm_num
    rw [hfrac]
    dsimp only
    rw [hr21, hr14, hr0]
    simp only [latC3, Mat3.mv, Vec3.normSq]
    norm_num
  have hdT10 : distance_sq (⟨63/50, 42/25, 0⟩ : Vec3) ⟨0, 0, 0⟩ (some latC3) = 333/100 := by
    rw [distance_sq_some]
    have hfrac : latC3.inverse.mv ((⟨0, 0, 0⟩ : Vec3).sub ⟨63/50, 42/25, 0⟩) =
        ⟨-(21/50), -(14/25), 0⟩ := by
      simp only [latC3, Mat3.mv, Vec3.sub, Vec3.mk.injEq]
      norm_num
    rw [hfrac]
    dsimp only
    rw [hrm21, hrm14, hr0]
    simp only [latC3, Mat3.mv, Vec3.normSq]
    norm_num
  have hp1 : (R345.mv ⟨21/10, 0, 0⟩).add Vec3.zero = (⟨63/50, 42/25, 0⟩ : Vec3) := by
    simp only [R345, Mat3.mv, Vec3.add, Vec3.zero, Vec3.mk.injEq]
    norm_num
  have hp0 : (R345.mv ⟨0, 0, 0⟩).add Vec3.zero = (⟨0, 0, 0⟩ : Vec3) := by
    simp only [R345, Mat3.mv, Vec3.add, Vec3.zero, Vec3.mk.injEq]
    norm_num
  have hatoms1 : cC3.atoms = [⟨0, ⟨0, 0, 0⟩⟩, ⟨0, ⟨21/10, 0, 0⟩⟩] := rfl
  have hatoms2 : (rigidTransform R345 Vec3.zero cC3).atoms =
      [⟨0, ⟨0, 0, 0⟩⟩, ⟨0, ⟨63/50, 42/25, 0⟩⟩] := by
    show [(⟨0, (R345.mv ⟨0, 0, 0⟩).add Vec3.zero⟩ : Atom),
      ⟨0, (R345.mv ⟨21/10, 0, 0⟩).add Vec3.zero⟩] = _
    rw [hp0, hp1]
  have hlat1 : cC3.lattice = some latC3 := rfl
  have hlat2 : (rigidTransform R345 Vec3.zero cC3).lattice = some latC3 := rfl
  have hadj1 : adjacencyMatrix cC3 (3/2) = [[false, true], [true, false]] := by
    rw [adjacencyMatrix_two cC3 (3/2) _ _ hatoms1]
    dsimp only
    rw [hlat1, hd01, hd10,
      decide_eq_true (show (81 : ℚ)/100 < 3/2 * (3/2) by norm_num)]
  have hadj2 : adjacencyMatrix (rigidTransform R345 Vec3.zero cC3) (3/2) =
      [[false, false], [false, false]] := by
    rw [adjacencyMatrix_two _ (3/2) _ _ hatoms2]
    dsimp only
    rw [hlat2, hdT01, hdT10,
      decide_eq_false (show ¬ ((333 : ℚ)/100 < 3/2 * (3/2)) by norm_num)]
  have hO : R345.transposeM.mul R345 = Mat3.idM := by
    simp only [R345, Mat3.transposeM, Mat3.mul, Mat3.idM, Mat3.mk.injEq]
    norm_num
  have hWF : latC3.WellFormed := by
    simp only [LatticeQ.WellFormed, latC3, Mat3.mul, Mat3.idM, Mat3.mk.injEq]
    norm_num
  refine ⟨hO, hWF, hadj1, hadj2, by decide, ?_⟩
  intro heq
  have e1 : hashKeyData cC3 (3/2) =
      HashKeyData.fp (adjacencyMatrix cC3 (3/2)) (calculate_pmoi_data cC3).1
        (calculate_pmoi_data cC3).2.1 (calculate_pmoi_data cC3).2.2 := by
    simp only [hashKeyData]
    rw [if_neg (show ¬ (cC3.atoms.length = 0) by rw [hatoms1]; simp),
      if_neg (show ¬ ((3 : ℚ)/2 ≤ 0) by norm_num)]
  have e2 : hashKeyData (rigidTransform R345 Vec3.zero cC3) (3/2) =
      HashKeyData.fp (adjacencyMatrix (rigidTransform R345 Vec3.zero cC3) (3/2))
        (calculate_pmoi_data (rigidTransform R345 Vec3.zero cC3)).1
        (calculate_pmoi_data (rigidTransform R345 Vec3.zero cC3)).2.1
        (calculate_pmoi_data (rigidTransform R345 Vec3.zero cC3)).2.2 := by
    simp only [hashKeyData]
    rw [if_neg (show ¬ ((rigidTransform R345 Vec3.zero cC3).atoms.length = 0) by
        rw [hatoms2]; simp),
      if_neg (show ¬ ((3 : ℚ)/2 ≤ 0) by norm_num)]
  rw [e1, e2, hadj1, hadj2] at heq
  simp only [HashKeyData.fp.injEq] at heq
  exact absurd heq.1 (by decide)

theorem insertByZ_perm (a : Atom) (l : List Atom) : (insertByZ a l).Perm (a :: l) := by
  induction l with
  | nil => rfl
  | cons b bs ih =>
    rw [insertByZ]
    by_cases h : b.position.z < a.position.z
    · rw [if_pos h]
      exact (ih.cons b).trans (List.Perm.swap a b bs)
    · rw [if_neg h]

theorem sortByZ_perm (l : List Atom) : (sortByZ l).Perm l := by
  induction l with
  | nil => rfl
  | cons a rest ih =>
    rw [sortByZ]
    exact (insertByZ_perm a (sortByZ rest)).trans (ih.cons a)

theorem countId_perm (l l' : List Atom) (h : l.Perm l') (j : ℕ) :
    countId l j = countId l' j := List.Perm.countP_eq _ h

theorem countId_cons (a : Atom) (l : List Atom) (j : ℕ) :
    countId (a :: l) j = countId l j + (if a.element_id = j then 1 else 0) := by
  rw [countId, List.countP_cons, countId]
  by_cases h : a.element_id = j
  · rw [if_pos h, if_pos (by simpa using h)]
  · rw [if_neg h, if_neg (by simpa using h)]

theorem countId_apply_random_rotation (R : Mat3) (l : List Atom) (j : ℕ) :
    countId (apply_random_rotation R l) j = countId l j := by
  rw [apply_random_rotation]
  by_cases h : l.isEmpty
  · rw [if_pos h]
  · rw [if_neg h]
    calc countId ((centerAtoms l).map fun a => { a with position := R.mv a.position }) j
        = countId (centerAtoms l) j := by
          simp only [countId, List.countP_map]
          rfl
      _ = countId l j := centerAtoms_countId l j

theorem foldl_max_le (l : List Atom) : ∀ acc, acc ≤ l.foldl (fun m a => max m a.element_id) acc ∧
    ∀ a ∈ l, a.element_id ≤ l.foldl (fun m a => max m a.element_id) acc := by
  induction l with
  | nil => intro acc; exact ⟨le_rfl, by simp⟩
  | cons b bs ih =>
    intro acc
    rw [List.foldl_cons]
    refine ⟨le_trans (le_max_left _ _) (ih (max acc b.element_id)).1, ?_⟩
    intro a ha
    rcases List.mem_cons.mp ha with h | h
    · subst h
      exact le_trans (le_max_right _ _) (ih (max acc a.element_id)).1
    · exact (ih (max acc b.element_id)).2 a h

theorem le_maxElemId (l : List Atom) (a : Atom) (h : a ∈ l) :
    a.element_id ≤ maxElemId l := (foldl_max_le l 0).2 a h

theorem countId_eq_zero (l : List Atom) (j : ℕ) (h : ∀ a ∈ l, a.element_id ≠ j) :
    countId l j = 0 := by
  rw [countId, List.countP_eq_zero]
  intro a ha
  simpa using h a ha

theorem sum_indicator_range (k : ℕ) : ∀ m,
    ((List.range m).map (fun id => if k = id then 1 else 0)).sum =
      if k < m then 1 else 0 := by
  intro m
  induction m with
  | zero => simp
  | succ m ih =>
    rw [List.range_succ, List.map_append, List.sum_append, ih]
    simp only [List.map_cons, List.map_nil, List.sum_cons, List.sum_nil]
    by_cases h2 : k = m
    · subst h2
      rw [if_neg (lt_irrefl k), if_pos (by omega : k = k), if_pos (Nat.lt_succ_self k)]
      omega
    · rw [if_neg h2]
      by_cases h1 : k < m
      · rw [if_pos h1, if_pos (by omega : k < m + 1)]
        omega
      · rw [if_neg h1, if_neg (by omega : ¬ k < m + 1)]
        omega

theorem sum_countId_range (m : ℕ) (l : List Atom) (h : ∀ a ∈ l, a.element_id < m) :
    ((List.range m).map (fun id => countId l id)).sum = l.length := by
  induction l with
  | nil => simp [countId]
  | cons a rest ih =>
    have hmap : (List.range m).map (fun id => countId (a :: rest) id) =
        (List.range m).map (fun id => countId rest id + (if a.element_id = id then 1 else 0)) := by
      refine List.map_congr_left ?_
      intro id _
      exact countId_cons a rest id
    rw [hmap, List.sum_map_add, ih (fun b hb => h b (List.mem_cons_of_mem a hb)),
      sum_indicator_range, if_pos (h a (List.mem_cons_self a rest)), List.length_cons]

theorem sum_tsub_balance (l : List ℕ) (f g : ℕ → ℕ)
    (h : (l.map f).sum = (l.map g).sum) :
    (l.map (fun i => f i - g i)).sum = (l.map (fun i => g i - f i)).sum := by
  have aux : ∀ l' : List ℕ,
      (((l'.map (fun i => f i - g i)).sum : ℤ) - ((l'.map (fun i => g i - f i)).sum : ℤ)) =
        ((l'.map f).sum : ℤ) - ((l'.map g).sum : ℤ) := by
    intro l'
    induction l' with
    | nil => simp
    | cons x xs ih =>
      simp only [List.map_cons, List.sum_cons]
      push_cast
      push_cast at ih
      omega
  have := aux l
  rw [h] at this
  omega

theorem positionsOf_nodup (atoms : List Atom) (id : ℕ) : (positionsOf atoms id).Nodup := by
  have hsub : (positionsOf atoms id).Sublist (atoms.enum.map Prod.fst) :=
    List.Sublist.map Prod.fst (List.filter_sublist atoms.enum)
  rw [List.enum_map_fst] at hsub
  exact hsub.nodup (List.nodup_range _)

theorem positionsOf_valid (atoms : List Atom) (id : ℕ) (i : ℕ)
    (h : i ∈ positionsOf atoms id) :
    ∃ a, atoms[i]? = some a ∧ a.element_id = id := by
  rw [positionsOf, List.mem_map] at h
  obtain ⟨p, hp, hfst⟩ := h
  rw [List.mem_filter] at hp
  obtain ⟨hmem, hpred⟩ := hp
  rw [List.mem_enum_iff_getElem?] at hmem
  refine ⟨p.2, ?_, by simpa using hpred⟩
  rw [← hfst]
  exact hmem

theorem countP_enumFrom (f : Atom → Bool) (l : List Atom) :
    ∀ k, (l.enumFrom k).countP (fun p => f p.2) = l.countP f := by
  induction l with
  | nil => intro k; rfl
  | cons a rest ih =>
    intro k
    rw [List.enumFrom_cons, List.countP_cons, List.countP_cons, ih (k + 1)]

theorem positionsOf_length (atoms : List Atom) (id : ℕ) :
    (positionsOf atoms id).length = countId atoms id := by
  rw [positionsOf, List.length_map, ← List.countP_eq_length_filter, countId]
  exact countP_enumFrom (fun a => a.element_id == id) atoms 0

theorem relabelGo_spec (id : ℕ) : ∀ (s : ℕ) (atoms : List Atom) (defs idxs : List ℕ),
    idxs.Nodup →
    (∀ i ∈ idxs, ∃ a, atoms[i]? = some a ∧ a.element_id = id) →
    s ≤ idxs.length → s ≤ defs.length →
    (∀ j ∈ defs, j ≠ id) →
    (relabelGo atoms defs idxs s).2 = defs.take (defs.length - s) ∧
    (relabelGo atoms defs idxs s).1.length = atoms.length ∧
    countId (relabelGo atoms defs idxs s).1 id + s = countId atoms id ∧
    (∀ j, j ≠ id → countId (relabelGo atoms defs idxs s).1 j =
      countId atoms j + (defs.drop (defs.length - s)).count j) := by
  intro s
  induction s with
  | zero =>
    intro atoms defs idxs _ _ _ _ _
    have hre : relabelGo atoms defs idxs 0 = (atoms, defs) := by
      cases idxs <;> rfl
    rw [hre, Nat.sub_zero, List.take_length, List.drop_length]
    exact ⟨rfl, rfl, Nat.add_zero _, fun j _ => by rw [List.count_nil, Nat.add_zero]⟩
  | succ s ih =>
    intro atoms defs idxs hnd hval hsi hsd hdef
    cases idxs with
    | nil => simp at hsi
    | cons idx restIdx =>
      have hdne : defs ≠ [] := by
        intro h
        subst h
        simp at hsd
      obtain ⟨a, ha, haid⟩ := hval idx (List.mem_cons_self _ _)
      have hlast : defs.getLast? = some (defs.getLast hdne) := List.getLast?_eq_getLast defs hdne
      have hstep : relabelGo atoms defs (idx :: restIdx) (s + 1) =
          relabelGo (relabelOne atoms idx (defs.getLast hdne)) defs.dropLast restIdx s := by
        show (match defs.getLast? with
          | none => (atoms, defs)
          | some new_id => relabelGo (relabelOne atoms idx new_id) defs.dropLast restIdx s) = _
        rw [hlast]
      have hidxlt : idx < atoms.length := by
        by_contra hlt
        rw [List.getElem?_eq_none (by omega)] at ha
        exact absurd ha (by simp)
      have hgt : atoms[idx] = a := by
        rw [List.getElem?_eq_getElem hidxlt] at ha
        exact Option.some.inj ha
      have hatoms' : relabelOne atoms idx (defs.getLast hdne) =
          atoms.set idx { a with element_id := defs.getLast hdne } := by
        rw [relabelOne, ha]
      have hlastne : defs.getLast hdne ≠ id := hdef _ (List.getLast_mem hdne)
      have hval' : ∀ i ∈ restIdx,
          ∃ b, (relabelOne atoms idx (defs.getLast hdne))[i]? = some b ∧ b.element_id = id := by
        intro i hi
        obtain ⟨b, hb, hbid⟩ := hval i (List.mem_cons_of_mem _ hi)
        have hne : idx ≠ i := by
          intro h
          exact (List.nodup_cons.mp hnd).1 (h ▸ hi)
        refine ⟨b, ?_, hbid⟩
        rw [hatoms', List.getElem?_set_ne hne]
        exact hb
      have hsi' : s ≤ restIdx.length := by
        simp only [List.length_cons] at hsi
        omega
      have hsd' : s ≤ defs.dropLast.length := by
        rw [List.length_dropLast]
        omega
      have hdef' : ∀ j ∈ defs.dropLast, j ≠ id :=
        fun j hj => hdef j ((List.dropLast_sublist defs).subset hj)
      obtain ⟨ih1, ih2, ih3, ih4⟩ := ih (relabelOne atoms idx (defs.getLast hdne))
        defs.dropLast restIdx (List.nodup_cons.mp hnd).2 hval' hsi' hsd' hdef'
      have hlen1 : (relabelOne atoms idx (defs.getLast hdne)).length = atoms.length := by
        rw [hatoms', List.length_set]
      have hpos : 0 < countId atoms id := by
        rw [countId]
        exact List.countP_pos_iff.mpr ⟨a, hgt ▸ List.getElem_mem hidxlt, by simp [haid]⟩
      have hcid : countId (relabelOne atoms idx (defs.getLast hdne)) id + 1 = countId atoms id := by
        rw [hatoms', countId, countId, List.countP_set _ _ _ _ hidxlt, hgt,
          if_pos (by simp [haid]), if_neg (by simp [hlastne])]
        rw [countId] at hpos
        omega
      have hcj : ∀ j, j ≠ id → countId (relabelOne atoms idx (defs.getLast hdne)) j =
          countId atoms j + (if defs.getLast hdne = j then 1 else 0) := by
        intro j hj
        rw [hatoms', countId, countId, List.countP_set _ _ _ _ hidxlt, hgt,
          if_neg (by simp only [beq_iff_eq, haid]; omega)]
        by_cases hlj : defs.getLast hdne = j
        · rw [if_pos (by simp [hlj]), if_pos hlj]
          omega
        · rw [if_neg (by simp [hlj]), if_neg hlj]
          omega
      rw [hstep]
      have hlen : defs.length - (s + 1) = defs.dropLast.length - s ∧
          defs.dropLast.length - s ≤ defs.dropLast.length := by
        rw [List.length_dropLast]
        omega
      refine ⟨?_, ?_, ?_, ?_⟩
      · rw [ih1, List.length_dropLast, List.dropLast_eq_take, List.take_take]
        congr 1
        omega
      · rw [ih2, hlen1]
      · omega
      · intro j hj
        have hsplit : defs.drop (defs.length - (s + 1)) =
            defs.dropLast.drop (defs.dropLast.length - s) ++ [defs.getLast hdne] := by
          calc defs.drop (defs.length - (s + 1))
              = (defs.dropLast ++ [defs.getLast hdne]).drop (defs.dropLast.length - s) := by
                rw [List.dropLast_append_getLast hdne, hlen.1]
            _ = defs.dropLast.drop (defs.dropLast.length - s) ++ [defs.getLast hdne] :=
                List.drop_append_of_le_length hlen.2
        rw [ih4 j hj, hcj j hj, hsplit, List.count_append, List.count_singleton]
        by_cases hlj : defs.getLast hdne = j
        · rw [if_pos hlj, if_pos (by simp [hlj])]
          omega
        · rw [if_neg hlj, if_neg (by simp [hlj])]
          omega

theorem repairGo_spec (C T : ℕ → ℕ) (d : CrossDraws)
    (hidx : ∀ id l, (d.idxShuffle id l).Perm l) :
    ∀ (ids : List ℕ) (atoms : List Atom) (defs : List ℕ),
    ids.Nodup →
    (∀ id ∈ ids, T id < C id → countId atoms id = C id) →
    (∀ j ∈ defs, C j < T j) →
    (ids.map (fun id => C id - T id)).sum = defs.length →
    (repairGo C T d ids (atoms, defs)).2 = [] ∧
    ∀ j, countId (repairGo C T d ids (atoms, defs)).1 j +
        (if j ∈ ids ∧ T j < C j then C j - T j else 0) = countId atoms j + defs.count j := by
  intro ids
  induction ids with
  | nil =>
    intro atoms defs _ _ _ h3
    have hdefs : defs = [] := List.length_eq_zero.mp (by simpa using h3.symm)
    subst hdefs
    refine ⟨rfl, ?_⟩
    intro j
    rw [show (repairGo C T d [] (atoms, [])).1 = atoms from rfl, if_neg (by simp),
      List.count_nil]
  | cons id0 rest ih =>
    intro atoms defs hnd h1 h2 h3
    simp only [List.map_cons, List.sum_cons] at h3
    by_cases hsur : T id0 < C id0
    · have hperm := hidx id0 (positionsOf atoms id0)
      have hnd' : (d.idxShuffle id0 (positionsOf atoms id0)).Nodup :=
        hperm.symm.nodup (positionsOf_nodup atoms id0)
      have hval : ∀ i ∈ d.idxShuffle id0 (positionsOf atoms id0),
          ∃ a, atoms[i]? = some a ∧ a.element_id = id0 :=
        fun i hi => positionsOf_valid atoms id0 i (hperm.mem_iff.mp hi)
      have hcnt : countId atoms id0 = C id0 := h1 id0 (List.mem_cons_self _ _) hsur
      have hleni : C id0 - T id0 ≤ (d.idxShuffle id0 (positionsOf atoms id0)).length := by
        rw [hperm.length_eq, positionsOf_length, hcnt]
        omega
      have hlend : C id0 - T id0 ≤ defs.length := by omega
      have hdefsne : ∀ j ∈ defs, j ≠ id0 := by
        intro j hj heq
        subst heq
        have := h2 j hj
        omega
      obtain ⟨r1, r2, r3, r4⟩ := relabelGo_spec id0 (C id0 - T id0) atoms defs
        (d.idxShuffle id0 (positionsOf atoms id0)) hnd' hval hleni hlend hdefsne
      have hstep : repairGo C T d (id0 :: rest) (atoms, defs) =
          repairGo C T d rest
            (relabelGo atoms defs (d.idxShuffle id0 (positionsOf atoms id0))
              (C id0 - T id0)) := by
        show repairGo C T d rest
            (if T id0 < C id0 then
              relabelGo atoms defs (d.idxShuffle id0 (positionsOf atoms id0)) (C id0 - T id0)
            else (atoms, defs)) = _
        rw [if_pos hsur]
      have h1' : ∀ id ∈ rest, T id < C id →
          countId (relabelGo atoms defs (d.idxShuffle id0 (positionsOf atoms id0))
            (C id0 - T id0)).1 id = C id := by
        intro id hid hTC
        have hne : id ≠ id0 := by
          intro h
          exact (List.nodup_cons.mp hnd).1 (h ▸ hid)
        rw [r4 id hne]
        have hzero : (defs.drop (defs.length - (C id0 - T id0))).count id = 0 := by
          rw [List.count_eq_zero]
          intro hmem
          have := h2 id ((List.drop_sublist _ _).subset hmem)
          omega
        rw [hzero, h1 id (List.mem_cons_of_mem _ hid) hTC, Nat.add_zero]
      have h2' : ∀ j ∈ (relabelGo atoms defs (d.idxShuffle id0 (positionsOf atoms id0))
          (C id0 - T id0)).2, C j < T j := by
        rw [r1]
        exact fun j hj => h2 j ((List.take_sublist _ _).subset hj)
      have h3' : (rest.map (fun id => C id - T id)).sum =
          (relabelGo atoms defs (d.idxShuffle id0 (positionsOf atoms id0))
            (C id0 - T id0)).2.length := by
        rw [r1, List.length_take]
        omega
      obtain ⟨c1, c2⟩ := ih (relabelGo atoms defs (d.idxShuffle id0 (positionsOf atoms id0))
          (C id0 - T id0)).1
        (relabelGo atoms defs (d.idxShuffle id0 (positionsOf atoms id0)) (C id0 - T id0)).2
        (List.nodup_cons.mp hnd).2 h1' h2' h3'
      rw [hstep]
      refine ⟨c1, ?_⟩
      intro j
      have hc2 := c2 j
      rw [show ((relabelGo atoms defs (d.idxShuffle id0 (positionsOf atoms id0))
          (C id0 - T id0)).1,
        (relabelGo atoms defs (d.idxShuffle id0 (positionsOf atoms id0))
          (C id0 - T id0)).2) =
        relabelGo atoms defs (d.idxShuffle id0 (positionsOf atoms id0)) (C id0 - T id0)
        from rfl] at hc2
      by_cases hj0 : j = id0
      · subst hj0
        rw [if_pos ⟨List.mem_cons_self _ _, hsur⟩]
        have hnr : ¬ (j ∈ rest ∧ T j < C j) := by
          intro hin
          exact (List.nodup_cons.mp hnd).1 hin.1
        rw [if_neg hnr] at hc2
        have hd0 : defs.count j = 0 := by
          rw [List.count_eq_zero]
          intro hmem
          exact hdefsne j hmem rfl
        have hd0' : (relabelGo atoms defs (d.idxShuffle j (positionsOf atoms j))
            (C j - T j)).2.count j = 0 := by
          rw [r1, List.count_eq_zero]
          intro hmem
          exact hdefsne j ((List.take_sublist _ _).subset hmem) rfl
        omega
      · rw [r4 j hj0] at hc2
        have hdc : (relabelGo atoms defs (d.idxShuffle id0 (positionsOf atoms id0))
            (C id0 - T id0)).2.count j +
            (defs.drop (defs.length - (C id0 - T id0))).count j = defs.count j := by
          conv_rhs => rw [← List.take_append_drop (defs.length - (C id0 - T id0)) defs]
          rw [List.count_append, r1]
        by_cases hjr : j ∈ rest ∧ T j < C j
        · rw [if_pos ⟨List.mem_cons_of_mem _ hjr.1, hjr.2⟩]
          rw [if_pos hjr] at hc2
          omega
        · rw [if_neg (by
            intro hin
            rcases List.mem_cons.mp hin.1 with h | h
            · exact hj0 h
            · exact hjr ⟨h, hin.2⟩)]
          rw [if_neg hjr] at hc2
          omega
    · have hstep : repairGo C T d (id0 :: rest) (atoms, defs) =
          repairGo C T d rest (atoms, defs) := by
        show repairGo C T d rest
            (if T id0 < C id0 then
              relabelGo atoms defs (d.idxShuffle id0 (positionsOf atoms id0)) (C id0 - T id0)
            else (atoms, defs)) = _
        rw [if_neg hsur]
      have h3' : (rest.map (fun id => C id - T id)).sum = defs.length := by omega
      obtain ⟨c1, c2⟩ := ih atoms defs (List.nodup_cons.mp hnd).2
        (fun id hid => h1 id (List.mem_cons_of_mem _ hid)) h2 h3'
      rw [hstep]
      refine ⟨c1, ?_⟩
      intro j
      have hc2 := c2 j
      by_cases hj0 : j = id0
      · subst hj0
        rw [if_neg (fun hin => hsur hin.2)]
        rw [if_neg (fun hin => hsur hin.2)] at hc2
        omega
      · by_cases hjr : j ∈ rest ∧ T j < C j
        · rw [if_pos ⟨List.mem_cons_of_mem _ hjr.1, hjr.2⟩]
          rw [if_pos hjr] at hc2
          omega
        · rw [if_neg (by
            intro hin
            rcases List.mem_cons.mp hin.1 with h | h
            · exact hj0 h
            · exact hjr ⟨h, hin.2⟩)]
          rw [if_neg hjr] at hc2
          omega

theorem wrap_or_center_countId (c : Cluster) (j : ℕ) :
    countId (wrap_or_center c).atoms j = countId c.atoms j := by
  rcases hc : c.lattice with _ | lat
  · simp only [wrap_or_center, hc]
    exact centerAtoms_countId _ j
  · simp only [wrap_or_center, hc]
    rw [countId, List.countP_map]
    rw [countId]
    refine List.countP_congr ?_
    intro a _
    rw [Function.comp_apply, wrapAtom_element_id]

theorem apply_random_rotation_length (R : Mat3) (l : List Atom) :
    (apply_random_rotation R l).length = l.length := by
  rw [apply_random_rotation]
  by_cases h : l.isEmpty
  · rw [if_pos h]
  · rw [if_neg h, List.length_map, centerAtoms_length]

theorem mem_apply_random_rotation (R : Mat3) (l : List Atom) (a : Atom)
    (ha : a ∈ apply_random_rotation R l) : ∃ b ∈ l, a.element_id = b.element_id := by
  rw [apply_random_rotation] at ha
  by_cases h : l.isEmpty
  · rw [if_pos h] at ha
    exact ⟨a, ha, rfl⟩
  · rw [if_neg h, centerAtoms_ne l (by simpa using h), List.map_map] at ha
    obtain ⟨b, hb, hab⟩ := List.mem_map.mp ha
    exact ⟨b, hb, by rw [← hab]; rfl⟩

theorem count_flatten_replicate_range (g : ℕ → ℕ) (j : ℕ) : ∀ m,
    (((List.range m).map (fun id => List.replicate (g id) id)).flatten.count j) =
      if j < m then g j else 0 := by
  intro m
  induction m with
  | zero => simp
  | succ m ih =>
    rw [List.range_succ, List.map_append, List.flatten_append, List.count_append, ih]
    simp only [List.map_cons, List.map_nil, List.flatten_cons, List.flatten_nil,
      List.append_nil, List.count_replicate]
    by_cases h2 : j = m
    · subst h2
      rw [if_neg (lt_irrefl j), if_pos (by simp), if_pos (Nat.lt_succ_self j)]
      omega
    · have hz : (if (m == j) = true then g m else 0) = 0 :=
        if_neg (by simp only [beq_iff_eq]; omega)
      rw [hz]
      by_cases h1 : j < m
      · rw [if_pos h1, if_pos (show j < m + 1 by omega)]
        omega
      · rw [if_neg h1, if_neg (show ¬ j < m + 1 by omega)]

theorem crossover_counts_core (d : CrossDraws)
    (hdef : ∀ l : List ℕ, (d.defShuffle l).Perm l)
    (hidx : ∀ id l, (d.idxShuffle id l).Perm l)
    (m : ℕ) (child tgt : List Atom)
    (hid1 : ∀ a ∈ child, a.element_id < m + 1)
    (hid2 : ∀ a ∈ tgt, a.element_id < m + 1)
    (hlen : child.length = tgt.length) :
    ∀ i, countId (repairGo (fun id => countId child id) (fun id => countId tgt id) d
      (List.range (m + 1))
      (child, d.defShuffle (((List.range (m + 1)).map
        (fun id => List.replicate (countId tgt id - countId child id) id)).flatten))).1 i =
      countId tgt i := by
  have hsums : ((List.range (m + 1)).map (fun id => countId child id)).sum =
      ((List.range (m + 1)).map (fun id => countId tgt id)).sum := by
    rw [sum_countId_range _ _ hid1, sum_countId_range _ _ hid2, hlen]
  have h2pre : ∀ j ∈ d.defShuffle (((List.range (m + 1)).map
      (fun id => List.replicate (countId tgt id - countId child id) id)).flatten),
      countId child j < countId tgt j := by
    intro j hj
    have hj2 := (hdef _).mem_iff.mp hj
    rw [List.mem_flatten] at hj2
    obtain ⟨l, hl, hjl⟩ := hj2
    rw [List.mem_map] at hl
    obtain ⟨id, _, hid⟩ := hl
    rw [← hid, List.mem_replicate] at hjl
    obtain ⟨h0, rfl⟩ := hjl
    omega
  have h3pre : ((List.range (m + 1)).map
      (fun id => countId child id - countId tgt id)).sum =
      (d.defShuffle (((List.range (m + 1)).map
        (fun id => List.replicate (countId tgt id - countId child id) id)).flatten)).length := by
    rw [(hdef _).length_eq, List.length_flatten, List.map_map]
    have hcomp : (List.length ∘ fun id => List.replicate (countId tgt id - countId child id) id) =
        fun id => countId tgt id - countId child id := by
      funext id
      simp
    rw [hcomp]
    exact sum_tsub_balance _ _ _ hsums
  obtain ⟨hfin2, hfin⟩ := repairGo_spec (fun id => countId child id)
    (fun id => countId tgt id) d hidx (List.range (m + 1)) child
    (d.defShuffle (((List.range (m + 1)).map
      (fun id => List.replicate (countId tgt id - countId child id) id)).flatten))
    (List.nodup_range _) (fun id _ _ => rfl) h2pre h3pre
  intro i
  have hfi := hfin i
  have hdefcount : (d.defShuffle (((List.range (m + 1)).map
      (fun id => List.replicate (countId tgt id - countId child id) id)).flatten)).count i =
      if i < m + 1 then countId tgt i - countId child i else 0 := by
    rw [(hdef _).count_eq, count_flatten_replicate_range]
  rw [hdefcount] at hfi
  by_cases hi : i < m + 1
  · rw [if_pos hi] at hfi
    by_cases hsur : countId tgt i < countId child i
    · rw [if_pos ⟨List.mem_range.mpr hi, hsur⟩] at hfi
      omega
    · rw [if_neg (fun hc => hsur hc.2)] at hfi
      omega
  · rw [if_neg hi, if_neg (fun hc => hi (List.mem_range.mp hc.1))] at hfi
    have hT0 : countId tgt i = 0 := countId_eq_zero _ _ (fun a ha => by
      have := hid2 a ha
      omega)
    have hC0 : countId child i = 0 := countId_eq_zero _ _ (fun a ha => by
      have := hid1 a ha
      omega)
    omega

/-- **C1** (amended): on equal-sized parents with at least two atoms,
`crossover_cut_splice` returns a child whose per-species counts equal
parent 1's — for every cut point and shuffles — *provided* every element id
of parent 2 is bounded by parent 1's maximum element id (the repair census
vectors only count ids up to that maximum; see the counterexample for what
happens otherwise). -/
theorem crossover_preserves_counts (p1 p2 : Cluster) (d : CrossDraws)
    (hlen : p1.atoms.length = p2.atoms.length)
    (hn : 2 ≤ p1.atoms.length)
    (hrange : ∀ a ∈ p2.atoms, a.element_id ≤ maxElemId p1.atoms)
    (hdef : ∀ l : List ℕ, (d.defShuffle l).Perm l)
    (hidx : ∀ id l, (d.idxShuffle id l).Perm l) :
    ∃ child, crossover_cut_splice p1 p2 d = some child ∧
      ∀ i, countId child.atoms i = countId p1.atoms i := by
  have hguard1 : ¬ (p1.atoms.length ≠ p2.atoms.length) := fun h => h hlen
  have hguard2 : ¬ (p1.atoms.length < 2) := by omega
  have hq1len : (sortByZ (apply_random_rotation d.rot1 p1.atoms)).length = p1.atoms.length := by
    rw [(sortByZ_perm _).length_eq, apply_random_rotation_length]
  have hq2len : (sortByZ (apply_random_rotation d.rot2 p2.atoms)).length = p2.atoms.length := by
    rw [(sortByZ_perm _).length_eq, apply_random_rotation_length]
  have hchildlen : ((sortByZ (apply_random_rotation d.rot1 p1.atoms)).take d.cut ++
      (sortByZ (apply_random_rotation d.rot2 p2.atoms)).drop d.cut).length =
      p1.atoms.length := by
    rw [List.length_append, List.length_take, List.length_drop, hq1len, hq2len, ← hlen]
    omega
  have hchildid : ∀ a ∈ (sortByZ (apply_random_rotation d.rot1 p1.atoms)).take d.cut ++
      (sortByZ (apply_random_rotation d.rot2 p2.atoms)).drop d.cut,
      a.element_id < maxElemId p1.atoms + 1 := by
    intro a ha
    rcases List.mem_append.mp ha with h | h
    · have h2 := (sortByZ_perm _).mem_iff.mp ((List.take_sublist _ _).subset h)
      obtain ⟨b, hb, hab⟩ := mem_apply_random_rotation _ _ _ h2
      rw [hab]
      exact Nat.lt_succ_of_le (le_maxElemId _ _ hb)
    · have h2 := (sortByZ_perm _).mem_iff.mp ((List.drop_sublist _ _).subset h)
      obtain ⟨b, hb, hab⟩ := mem_apply_random_rotation _ _ _ h2
      rw [hab]
      exact Nat.lt_succ_of_le (hrange b hb)
  have hp1id : ∀ a ∈ p1.atoms, a.element_id < maxElemId p1.atoms + 1 :=
    fun a ha => Nat.lt_succ_of_le (le_maxElemId _ _ ha)
  have hcore := crossover_counts_core d hdef hidx (maxElemId p1.atoms)
    ((sortByZ (apply_random_rotation d.rot1 p1.atoms)).take d.cut ++
      (sortByZ (apply_random_rotation d.rot2 p2.atoms)).drop d.cut)
    p1.atoms hchildid hp1id hchildlen
  refine ⟨wrap_or_center { p1 with
    atoms := (repairGo
      (fun id => countId ((sortByZ (apply_random_rotation d.rot1 p1.atoms)).take d.cut ++
        (sortByZ (apply_random_rotation d.rot2 p2.atoms)).drop d.cut) id)
      (fun id => countId p1.atoms id) d (List.range (maxElemId p1.atoms + 1))
      ((sortByZ (apply_random_rotation d.rot1 p1.atoms)).take d.cut ++
        (sortByZ (apply_random_rotation d.rot2 p2.atoms)).drop d.cut,
       d.defShuffle (((List.range (maxElemId p1.atoms + 1)).map
        (fun id => List.replicate (countId p1.atoms id -
          countId ((sortByZ (apply_random_rotation d.rot1 p1.atoms)).take d.cut ++
            (sortByZ (apply_random_rotation d.rot2 p2.atoms)).drop d.cut) id) id)).flatten))).1 },
    ?_, ?_⟩
  · simp only [crossover_cut_splice]
    rw [if_neg hguard1, if_neg hguard2]
  · intro i
    rw [wrap_or_center_countId]
    exact hcore i

/-- Witness for `crossover_preserves_counts`: equal two-atom single-species
parents with identity draws produce a child with parent 1's composition. -/
theorem crossover_preserves_counts_witness :
    ∃ child, crossover_cut_splice pW1 pW1 dLin = some child ∧
      ∀ i, countId child.atoms i = countId pW1.atoms i :=
  crossover_preserves_counts pW1 pW1 dLin rfl (by decide) (by decide)
    (fun l => List.Perm.refl l) (fun _ l => List.Perm.refl l)

/-- Counterexample to unconditional composition preservation: parent 2's
species id 1 exceeds parent 1's maximum id 0, so the repair census vectors
(of length `max_id + 1 = 1`) never see it: the child keeps one id-1 atom
although parent 1 has none. -/
theorem crossover_alien_ids_counterexample :
    ∃ child, crossover_cut_splice pW1 pX2 dLin = some child ∧
      countId child.atoms 1 = 1 ∧ countId pW1.atoms 1 = 0 := by
  have hrotid : ∀ l : List Atom, l.isEmpty = false →
      centerAtoms l = l → apply_random_rotation Mat3.idM l = l := by
    intro l hne hc
    rw [apply_random_rotation, if_neg (by simp [hne]), hc]
    refine mapIdOf _ ?_ l
    intro a
    cases a with
    | mk e p =>
      simp only [Atom.mk.injEq]
      exact ⟨trivial, Mat3.mv_id p⟩
  have hcenter : ∀ (i1 i2 : ℕ),
      centerAtoms [(⟨i1, ⟨0, 0, -(1/2)⟩⟩ : Atom), ⟨i2, ⟨0, 0, 1/2⟩⟩] =
        [(⟨i1, ⟨0, 0, -(1/2)⟩⟩ : Atom), ⟨i2, ⟨0, 0, 1/2⟩⟩] := by
    intro i1 i2
    have hsum : sumPos [(⟨i1, ⟨0, 0, -(1/2)⟩⟩ : Atom), ⟨i2, ⟨0, 0, 1/2⟩⟩] = ⟨0, 0, 0⟩ := by
      show Vec3.add (Vec3.add Vec3.zero ⟨0, 0, -(1/2)⟩) ⟨0, 0, 1/2⟩ = _
      simp only [Vec3.add, Vec3.zero, Vec3.mk.injEq]
      norm_num
    rw [centerAtoms_ne [(⟨i1, ⟨0, 0, -(1/2)⟩⟩ : Atom), ⟨i2, ⟨0, 0, 1/2⟩⟩] rfl, hsum]
    have hzv : Vec3.smul (1 / (([(⟨i1, ⟨0, 0, -(1/2)⟩⟩ : Atom), ⟨i2, ⟨0, 0, 1/2⟩⟩] :
        List Atom).length : ℚ)) (⟨0, 0, 0⟩ : Vec3) = Vec3.zero := by
      simp only [Vec3.smul, Vec3.zero, Vec3.mk.injEq]
      norm_num
    rw [hzv]
    refine mapIdOf _ ?_ _
    intro a
    cases a with
    | mk e p =>
      simp only [Atom.mk.injEq]
      exact ⟨trivial, Vec3.sub_zero' p⟩
  have hsort : ∀ (i1 i2 : ℕ),
      sortByZ [(⟨i1, ⟨0, 0, -(1/2)⟩⟩ : Atom), ⟨i2, ⟨0, 0, 1/2⟩⟩] =
        [(⟨i1, ⟨0, 0, -(1/2)⟩⟩ : Atom), ⟨i2, ⟨0, 0, 1/2⟩⟩] := by
    intro i1 i2
    show (if (1/2 : ℚ) < -(1/2) then
        (⟨i2, ⟨0, 0, 1/2⟩⟩ : Atom) :: insertByZ ⟨i1, ⟨0, 0, -(1/2)⟩⟩ []
      else [(⟨i1, ⟨0, 0, -(1/2)⟩⟩ : Atom), ⟨i2, ⟨0, 0, 1/2⟩⟩]) = _
    rw [if_neg (by norm_num)]
  have h1 : apply_random_rotation Mat3.idM pW1.atoms = pW1.atoms :=
    hrotid pW1.atoms rfl (hcenter 0 0)
  have h2 : apply_random_rotation Mat3.idM pX2.atoms = pX2.atoms :=
    hrotid pX2.atoms rfl (hcenter 1 1)
  have hs1 : sortByZ pW1.atoms = pW1.atoms := hsort 0 0
  have hs2 : sortByZ pX2.atoms = pX2.atoms := hsort 1 1
  refine ⟨wrap_or_center { pW1 with
    atoms := [(⟨0, ⟨0, 0, -(1/2)⟩⟩ : Atom), ⟨1, ⟨0, 0, 1/2⟩⟩] }, ?_, ?_, ?_⟩
  · simp only [crossover_cut_splice, dLin]
    rw [if_neg (show ¬ (pW1.atoms.length ≠ pX2.atoms.length) by decide),
      if_neg (show ¬ (pW1.atoms.length < 2) by decide), h1, h2, hs1, hs2]
    rfl
  · rw [wrap_or_center_countId]
    rfl
  · rfl

theorem centerAtoms_sum_zero (l : List Atom) (h : sumPos l = Vec3.zero) :
    centerAtoms l = l := by
  by_cases he : l.isEmpty = true
  · rw [centerAtoms, if_pos he]
  · rw [centerAtoms_ne l (by simpa using he), h]
    have hz : Vec3.smul (1 / (l.length : ℚ)) Vec3.zero = Vec3.zero := by
      simp only [Vec3.smul, Vec3.zero, Vec3.mk.injEq]
      norm_num
    rw [hz]
    refine mapIdOf _ ?_ l
    intro a
    cases a with
    | mk e p =>
      simp only [Atom.mk.injEq]
      exact ⟨trivial, Vec3.sub_zero' p⟩

theorem mapIdxIdOf {α : Type} (f : ℕ → α → α) (h : ∀ i a, f i a = a) (l : List α) :
    l.mapIdx f = l := by
  induction l generalizing f with
  | nil => rfl
  | cons a rest ih =>
    rw [List.mapIdx_cons, h 0 a, ih (fun i => f (i + 1)) (fun i a => h (i + 1) a)]

theorem check_overlap_two (c : Cluster) (grid : InteractionGrid) (a0 a1 : Atom)
    (h : c.atoms = [a0, a1]) :
    check_overlap c grid =
      decide (grid.get_collision_sq a0.element_id a1.element_id ≤
        distance_sq a0.position a1.position c.lattice) := by
  have hrange : List.range (([a0, a1] : List Atom).length) = [0, 1] := rfl
  simp only [check_overlap, h, hrange, List.all_cons, List.all_nil,
    List.getD_cons_zero, List.getD_cons_succ]
  norm_num

/-- **C2** (amended): the breeding while-loop only admits overlap-checked
clusters: every cluster in a successful `breedFill` output beyond the elite
accumulator satisfies `check_overlap` (the refill path performs no such
check — see the counterexample). -/
theorem breedFill_overlap (grid : InteractionGrid) (target gen : ℕ) :
    ∀ (cands acc out : List Cluster),
    (∀ c ∈ acc, check_overlap c grid = true) →
    breedFill grid target gen cands acc = some out →
    ∀ c ∈ out, check_overlap c grid = true := by
  intro cands
  induction cands with
  | nil =>
    intro acc out hacc heq
    rw [show breedFill grid target gen [] acc =
      (if target ≤ acc.length then some acc else none) from rfl] at heq
    by_cases ht : target ≤ acc.length
    · rw [if_pos ht] at heq
      cases Option.some.inj heq
      exact hacc
    · rw [if_neg ht] at heq
      exact absurd heq (by simp)
  | cons cand rest ih =>
    intro acc out hacc heq
    rw [show breedFill grid target gen (cand :: rest) acc =
      (if target ≤ acc.length then some acc
       else if check_overlap cand grid = true then
         breedFill grid target gen rest
           (acc ++ [{ cand with status := .Born, generation := gen }])
       else breedFill grid target gen rest acc) from rfl] at heq
    by_cases ht : target ≤ acc.length
    · rw [if_pos ht] at heq
      cases Option.some.inj heq
      exact hacc
    · rw [if_neg ht] at heq
      by_cases hov : check_overlap cand grid = true
      · rw [if_pos hov] at heq
        refine ih _ out ?_ heq
        intro c hc
        rcases List.mem_append.mp hc with h2 | h2
        · exact hacc c h2
        · rw [List.mem_singleton] at h2
          subst h2
          exact hov
      · rw [if_neg hov] at heq
        exact ih _ out hacc heq

/-- Witness for `breedFill_overlap`: a single-atom candidate admitted into an
empty accumulator satisfies the overlap check. -/
theorem breedFill_overlap_witness :
    breedFill gridC2 1 7 [candW2] [] =
      some [{ candW2 with status := ClusterStatus.Born, generation := 7 }] ∧
    check_overlap { candW2 with status := ClusterStatus.Born, generation := 7 } gridC2 = true :=
  ⟨rfl, breedFill_overlap gridC2 1 7 [candW2] []
    [{ candW2 with status := ClusterStatus.Born, generation := 7 }]
    (by simp) rfl _ (by simp)⟩


/-- Counterexample to the universal overlap invariant: a generation whose
refill path (which never calls `check_overlap`) admits a mutant with two
atoms at squared separation `3.24`, below the grid threshold `4`. -/
theorem refill_admits_overlap_counterexample :
    ∃ st' flags, genStep pC2 gridC2 stC2 oC2 = some (st', flags) ∧
      flags.collapsed = false ∧ flags.extinct = false ∧
      ∃ c ∈ st'.population, check_overlap c gridC2 = false := by
  have hg00 : gridC2.get_collision_sq 0 0 = 4 := by
    show (((1 : ℚ) + 1) * 1) * (((1 : ℚ) + 1) * 1) = 4
    norm_num
  have hovF : check_overlap refC2 gridC2 = false := by
    rw [check_overlap_two refC2 gridC2 _ _ rfl]
    dsimp only
    rw [hg00]
    have hd : distance_sq (⟨-(9/10), 0, 0⟩ : Vec3) ⟨9/10, 0, 0⟩ refC2.lattice = 81/25 := by
      show ((⟨9/10, 0, 0⟩ : Vec3).sub ⟨-(9/10), 0, 0⟩).normSq = 81/25
      simp only [Vec3.sub, Vec3.normSq]
      norm_num
    rw [hd]
    exact decide_eq_false (by norm_num)
  have hsumA : sumPos aC2h.atoms = Vec3.zero := by
    show Vec3.add (Vec3.add Vec3.zero ⟨-(21/20), 0, 0⟩) ⟨21/20, 0, 0⟩ = Vec3.zero
    simp only [Vec3.add, Vec3.zero, Vec3.mk.injEq]
    norm_num
  have hsumR : sumPos [(⟨0, ⟨-(9/10), 0, 0⟩⟩ : Atom), ⟨0, ⟨9/10, 0, 0⟩⟩] = Vec3.zero := by
    show Vec3.add (Vec3.add Vec3.zero ⟨-(9/10), 0, 0⟩) ⟨9/10, 0, 0⟩ = Vec3.zero
    simp only [Vec3.add, Vec3.zero, Vec3.mk.injEq]
    norm_num
  have hrot : aC2h.atoms.map (fun a => { a with position := mdC2.rotM.mv a.position }) =
      aC2h.atoms := by
    refine mapIdOf _ ?_ _
    intro a
    cases a with
    | mk e p =>
      simp only [Atom.mk.injEq]
      refine ⟨trivial, ?_⟩
      show Mat3.idM.mv p = p
      exact Mat3.mv_id p
  have htw : aC2h.atoms.mapIdx (fun i a =>
      { a with position := ⟨a.position.x * (mdC2.twistSC i).2 - a.position.y * (mdC2.twistSC i).1,
        a.position.x * (mdC2.twistSC i).1 + a.position.y * (mdC2.twistSC i).2,
        a.position.z⟩ }) = aC2h.atoms := by
    refine mapIdxIdOf _ ?_ _
    intro i a
    cases a with
    | mk e p =>
      cases p with
      | mk px py pz =>
        show ({ element_id := e, position := ⟨px * 1 - py * 0, px * 0 + py * 1, pz⟩ } : Atom) =
          ⟨e, ⟨px, py, pz⟩⟩
        simp only [Atom.mk.injEq, Vec3.mk.injEq]
        norm_num
  have hrat : aC2h.atoms.mapIdx (fun i a =>
      { a with position := a.position.add (mdC2.rattle i) }) =
      [(⟨0, ⟨-(9/10), 0, 0⟩⟩ : Atom), ⟨0, ⟨9/10, 0, 0⟩⟩] := by
    rw [show aC2h.atoms = [(⟨0, ⟨-(21/20), 0, 0⟩⟩ : Atom), ⟨0, ⟨21/20, 0, 0⟩⟩] from rfl,
      List.mapIdx_cons, List.mapIdx_cons, List.mapIdx_nil]
    dsimp only
    rw [show mdC2.rattle 0 = (⟨3/20, 0, 0⟩ : Vec3) from rfl,
      show mdC2.rattle (0 + 1) = (⟨-(3/20), 0, 0⟩ : Vec3) from rfl]
    simp only [List.cons.injEq, Atom.mk.injEq, Vec3.mk.injEq, Vec3.add]
    norm_num
  have hwoc : wrap_or_center aC2h = aC2h := by
    show { aC2h with atoms := centerAtoms aC2h.atoms } = aC2h
    rw [centerAtoms_sum_zero aC2h.atoms hsumA]
  have happly : (((Mutator.newM.rotate (157/50)).twist (1/2)).rattleI (1/5)).apply aC2h mdC2 =
      { aC2h with atoms := [(⟨0, ⟨-(9/10), 0, 0⟩⟩ : Atom), ⟨0, ⟨9/10, 0, 0⟩⟩] } := by
    simp only [Mutator.apply, Mutator.newM, Mutator.rotate, Mutator.twist, Mutator.rattleI]
    rw [hwoc, hrot, htw, hrat]
    show ({ generation := aC2h.generation, atoms := centerAtoms [(⟨0, ⟨-(9/10), 0, 0⟩⟩ : Atom), ⟨0, ⟨9/10, 0, 0⟩⟩], lattice := aC2h.lattice, energy := aC2h.energy, hash_key := aC2h.hash_key, status := aC2h.status } : Cluster) = _
    rw [centerAtoms_sum_zero _ hsumR]
  have hbuild : buildRefill [aC2h] (2 - ([aC2h] : List Cluster).length) oC2.refillDraws =
      [{ ((((Mutator.newM.rotate (157/50)).twist (1/2)).rattleI (1/5)).apply aC2h mdC2) with status := .Born, energy := none }] := rfl
  rw [happly] at hbuild
  have hrefpipe : fingerprintPass oC2.fingerprint (evalBatch oC2.evalRefill
      [{ ({ aC2h with atoms := [(⟨0, ⟨-(9/10), 0, 0⟩⟩ : Atom), ⟨0, ⟨9/10, 0, 0⟩⟩] } : Cluster) with status := .Born, energy := none }]) = [refC2] := rfl
  have hrb : rankBefore refC2 aC2h = false := by
    show decide ((0 : ℚ) < 0) = false
    exact decide_eq_false (by norm_num)
  have hrank : rank_population ([aC2h] ++ [refC2]) = [aC2h, refC2] := by
    show (if rankBefore refC2 aC2h = true then refC2 :: rankInsert aC2h []
      else [aC2h, refC2]) = _
    rw [hrb]
    exact if_neg (by decide)
  have himp : decide ((([aC2h, refC2] : List Cluster).head?.bind Cluster.energy).getD f64MAX <
      stC2.last_global_best_e - 1 / 100000) = false := by
    show decide ((0 : ℚ) < -5 - 1 / 100000) = false
    exact decide_eq_false (by norm_num)
  refine ⟨⟨[aC2h, refC2], stC2.stagnation_counter + 1, stC2.extinction_cooldown,
    stC2.last_global_best_e, stC2.current_mutation_rate, stC2.gen + 1⟩,
    ⟨false, 0, false⟩, ?_, rfl, rfl, ⟨refC2, by simp, hovF⟩⟩
  simp only [genStep]
  rw [show stC2.population = [aC2, aC2] from rfl,
    if_neg (show ¬ (([aC2, aC2] : List Cluster).isEmpty = true) by decide),
    show pC2.elitism_count = 2 from rfl,
    show ([aC2, aC2] : List Cluster).take 2 = [aC2, aC2] from rfl,
    show pC2.population_size = 2 from rfl,
    show breedFill gridC2 2 (stC2.gen + 1) oC2.candidates [aC2, aC2] = some [aC2, aC2] from rfl]
  dsimp only
  rw [show fingerprintPass oC2.fingerprint (evalBatch oC2.evalMain [aC2, aC2]) =
      [aC2h, aC2h] from rfl,
    show (deduplicate_population [aC2h, aC2h]).1 = [aC2h] from rfl,
    if_neg (show ¬ (([aC2h] : List Cluster).isEmpty = true) by decide),
    if_pos (show ([aC2h] : List Cluster).length < 2 by decide),
    hbuild, hrefpipe, hrank, himp]
  rfl

theorem breedFill_length (grid : InteractionGrid) (target gen : ℕ) :
    ∀ (cands acc out : List Cluster), acc.length ≤ target →
    breedFill grid target gen cands acc = some out → out.length = target := by
  intro cands
  induction cands with
  | nil =>
    intro acc out hle heq
    rw [show breedFill grid target gen [] acc =
      (if target ≤ acc.length then some acc else none) from rfl] at heq
    by_cases ht : target ≤ acc.length
    · rw [if_pos ht] at heq
      cases Option.some.inj heq
      omega
    · rw [if_neg ht] at heq
      exact absurd heq (by simp)
  | cons cand rest ih =>
    intro acc out hle heq
    rw [show breedFill grid target gen (cand :: rest) acc =
      (if target ≤ acc.length then some acc
       else if check_overlap cand grid = true then
         breedFill grid target gen rest
           (acc ++ [{ cand with status := .Born, generation := gen }])
       else breedFill grid target gen rest acc) from rfl] at heq
    by_cases ht : target ≤ acc.length
    · rw [if_pos ht] at heq
      cases Option.some.inj heq
      omega
    · rw [if_neg ht] at heq
      by_cases hov : check_overlap cand grid = true
      · rw [if_pos hov] at heq
        exact ih _ out (by rw [List.length_append]; simp; omega) heq
      · rw [if_neg hov] at heq
        exact ih _ out hle heq

theorem dedupGo_length_le (pop : List Cluster) : ∀ seen, (dedupGo pop seen).length ≤ pop.length := by
  induction pop with
  | nil => intro seen; simp [dedupGo]
  | cons c rest ih =>
    intro seen
    rw [dedupGo]
    by_cases h1 : (c.status == ClusterStatus.Discarded || c.energy.isNone) = true
    · rw [if_pos h1]
      exact le_trans (ih seen) (by simp)
    · rw [if_neg h1]
      rcases hh : c.hash_key with _ | hash
      · simp only [List.length_cons]
        exact Nat.succ_le_succ (ih seen)
      · dsimp only
        by_cases h2 : (hash == "INVALID" || hasSubstr hash "NAN") = true
        · rw [if_pos h2]
          simp only [List.length_cons]
          exact Nat.succ_le_succ (ih seen)
        · rw [if_neg h2]
          by_cases h3 : seen.contains hash = true
          · rw [if_pos h3]
            exact le_trans (ih seen) (by simp)
          · rw [if_neg h3]
            simp only [List.length_cons]
            exact Nat.succ_le_succ (ih _)

theorem dedup_length_le (pop : List Cluster) :
    (deduplicate_population pop).1.length ≤ pop.length := by
  rw [deduplicate_population]
  by_cases h : pop.length = 0
  · rw [if_pos h]
  · rw [if_neg h]
    exact dedupGo_length_le pop []

theorem rankInsert_length (a : Cluster) (l : List Cluster) :
    (rankInsert a l).length = l.length + 1 := by
  induction l with
  | nil => rfl
  | cons b bs ih =>
    rw [rankInsert]
    by_cases h : rankBefore b a = true
    · rw [if_pos h, List.length_cons, ih, List.length_cons]
    · rw [if_neg h, List.length_cons, List.length_cons]

theorem rank_population_length (l : List Cluster) :
    (rank_population l).length = l.length := by
  induction l with
  | nil => rfl
  | cons a rest ih =>
    rw [rank_population, rankInsert_length, ih, List.length_cons]

theorem buildRefill_length (pool : List Cluster) (needed : ℕ) (draws : ℕ → MutDraws) :
    (buildRefill pool needed draws).length = needed := by
  rw [buildRefill, List.length_map, List.length_range]

theorem evalBatch_length (responses : ℕ → Option EvalResult) (pop : List Cluster) :
    (evalBatch responses pop).length = pop.length := by
  rw [evalBatch, List.length_mapIdx]

theorem fingerprintPass_length (fp : Cluster → String) (pop : List Cluster) :
    (fingerprintPass fp pop).length = pop.length := by
  rw [fingerprintPass, List.length_map]

/-- **C7** (amended): if a generation neither went extinct nor collapsed
short — i.e. `flags.extinct = false`, and if the population collapsed, the
regeneration reached the full `population_size` — then the post-generation
population length equals `population_size` exactly (given the incoming
population is not oversized).  The collapse-regeneration path has a bounded
attempt budget and is *not* refilled afterwards, so it can genuinely fall
short; that shortfall is not covered by the extinction exception of the
original claim (see the counterexample). -/
theorem genStep_population_size (p : Params) (grid : InteractionGrid) (st : GAState)
    (o : GenOracle) (st' : GAState) (flags : GenFlags)
    (hlen : st.population.length ≤ p.population_size)
    (hstep : genStep p grid st o = some (st', flags))
    (hext : flags.extinct = false)
    (hcol : flags.collapsed = true → flags.collapseLen = p.population_size) :
    st'.population.length = p.population_size := by
  simp only [genStep] at hstep
  rcases hbred : (if st.population.isEmpty = true then some (st.population.take p.elitism_count)
      else breedFill grid p.population_size (st.gen + 1) o.candidates
        (st.population.take p.elitism_count)) with _ | next_gen
  · rw [hbred] at hstep
    simp at hstep
  · rw [hbred] at hstep
    dsimp only at hstep
    have hNG : next_gen.length ≤ p.population_size := by
      by_cases he : st.population.isEmpty = true
      · rw [if_pos he] at hbred
        cases Option.some.inj hbred
        calc (st.population.take p.elitism_count).length ≤ st.population.length := by
              rw [List.length_take]
              omega
          _ ≤ _ := hlen
      · rw [if_neg he] at hbred
        have := breedFill_length grid p.population_size (st.gen + 1) o.candidates
          (st.population.take p.elitism_count) next_gen (by rw [List.length_take]; omega) hbred
        omega
    have huq : (deduplicate_population (fingerprintPass o.fingerprint
        (evalBatch o.evalMain next_gen))).1.length ≤ next_gen.length := by
      calc (deduplicate_population (fingerprintPass o.fingerprint
            (evalBatch o.evalMain next_gen))).1.length
          ≤ (fingerprintPass o.fingerprint (evalBatch o.evalMain next_gen)).length :=
            dedup_length_le _
        _ = next_gen.length := by rw [fingerprintPass_length, evalBatch_length]
    split at hstep
    · -- collapse branch
      dsimp only at hstep
      split at hstep <;> try split at hstep <;> try split at hstep
      all_goals
        try (have hp := Option.some.inj hstep
             injection hp with h1 h2
             subst h1
             subst h2)
      all_goals
        first
          | omega
          | (dsimp only
             rw [rank_population_length]
             exact hcol rfl)
          | exact absurd hext (by simp)
    · -- non-collapse branches
      split at hstep
      · -- refill branch
        rename_i hlt
        dsimp only at hstep
        have hpoplen : (rank_population
            ((deduplicate_population (fingerprintPass o.fingerprint
              (evalBatch o.evalMain next_gen))).1 ++
            fingerprintPass o.fingerprint (evalBatch o.evalRefill
              (buildRefill (deduplicate_population (fingerprintPass o.fingerprint
                (evalBatch o.evalMain next_gen))).1
                (p.population_size - (deduplicate_population (fingerprintPass o.fingerprint
                  (evalBatch o.evalMain next_gen))).1.length)
                o.refillDraws)))).length = p.population_size := by
          rw [rank_population_length, List.length_append, fingerprintPass_length,
            evalBatch_length, buildRefill_length]
          omega
        split at hstep <;> try split at hstep <;> try split at hstep
        all_goals
          try (have hp := Option.some.inj hstep
               injection hp with h1 h2
               subst h1
               subst h2)
        all_goals
          first
            | omega
            | exact hpoplen
            | exact absurd hext (by simp)
      · -- already-full branch
        rename_i hge
        have hpoplen : (rank_population
            (deduplicate_population (fingerprintPass o.fingerprint
              (evalBatch o.evalMain next_gen))).1).length = p.population_size := by
          rw [rank_population_length]
          omega
        split at hstep <;> try split at hstep <;> try split at hstep
        all_goals
          try (have hp := Option.some.inj hstep
               injection hp with h1 h2
               subst h1
               subst h2)
        all_goals
          first
            | omega
            | exact hpoplen
            | exact absurd hext (by simp)

/-- Witness for `genStep_population_size`: a healthy one-cluster generation
keeps the population at exactly `population_size = 1`. -/
theorem genStep_population_size_witness :
    ∃ st' flags, genStep pW7 gridC2 stW7 oW7 = some (st', flags) ∧
      st'.population.length = pW7.population_size := by
  have himp : decide ((([wch7] : List Cluster).head?.bind Cluster.energy).getD f64MAX <
      stW7.last_global_best_e - 1 / 100000) = false := by
    show decide ((0 : ℚ) < -5 - 1 / 100000) = false
    exact decide_eq_false (by norm_num)
  have hstep : genStep pW7 gridC2 stW7 oW7 =
      some (⟨[wch7], stW7.stagnation_counter + 1, stW7.extinction_cooldown,
        stW7.last_global_best_e, stW7.current_mutation_rate, stW7.gen + 1⟩,
        ⟨false, 0, false⟩) := by
    simp only [genStep]
    rw [show stW7.population = [wc7] from rfl,
      if_neg (show ¬ (([wc7] : List Cluster).isEmpty = true) by decide),
      show pW7.elitism_count = 1 from rfl,
      show ([wc7] : List Cluster).take 1 = [wc7] from rfl,
      show pW7.population_size = 1 from rfl,
      show breedFill gridC2 1 (stW7.gen + 1) oW7.candidates [wc7] = some [wc7] from rfl]
    dsimp only
    rw [show fingerprintPass oW7.fingerprint (evalBatch oW7.evalMain [wc7]) = [wch7] from rfl,
      show (deduplicate_population [wch7]).1 = [wch7] from rfl,
      if_neg (show ¬ (([wch7] : List Cluster).isEmpty = true) by decide),
      if_neg (show ¬ (([wch7] : List Cluster).length < 1) by decide)]
    dsimp only
    rw [show rank_population [wch7] = [wch7] from rfl, himp]
    rfl
  exact ⟨_, _, hstep, genStep_population_size pW7 gridC2 stW7 oW7 _ _ (by decide) hstep rfl
    (fun h => absurd h (by decide))⟩

theorem initPopGo_all_none (ac : List ℕ) (bs : ℚ) (grid : InteractionGrid) (target : ℕ)
    (htgt : target ≠ 0) :
    ∀ l : List RandomDraws, (∀ rd ∈ l, Cluster.new_random ac bs grid rd = none) →
    initPopGo ac bs grid target l [] = [] := by
  intro l
  induction l with
  | nil => intro _; rfl
  | cons rd rest ih =>
    intro h
    show (if target ≤ ([] : List Cluster).length then ([] : List Cluster)
      else match Cluster.new_random ac bs grid rd with
        | some c => initPopGo ac bs grid target rest ([] ++ [c])
        | none => initPopGo ac bs grid target rest []) = []
    rw [if_neg (by simp only [List.length_nil]; omega), h rd (List.mem_cons_self _ _)]
    exact ih (fun rd2 hm => h rd2 (List.mem_cons_of_mem _ hm))

/-- Counterexample to the unqualified size invariant: with a box too small
for its two atoms (`pX7`: threshold² 4 but unit box, maximal squared
separation 3), all `population_size * 50` collapse-regeneration attempts
fail, the regenerated population is empty, and — since the source never
refills after a collapse — the generation ends with `0 ≠ population_size`
clusters although no mass extinction happened.  The incoming empty
population is exactly what `solve` starts with when the initial generation
already failed. -/
theorem collapse_shortfall_counterexample :
    ∃ st' flags, genStep pX7 gridC2 stX7 oX7 = some (st', flags) ∧
      flags.extinct = false ∧ flags.collapsed = true ∧
      st'.population.length ≠ pX7.population_size := by
  have hg00 : gridC2.get_collision_sq 0 0 = 4 := by
    show (((1 : ℚ) + 1) * 1) * (((1 : ℚ) + 1) * 1) = 4
    norm_num
  have hd0 : ((⟨1/2, 1/2, 1/2⟩ : Vec3).sub ⟨1/2, 1/2, 1/2⟩).normSq = 0 := by
    simp only [Vec3.sub, Vec3.normSq]
    norm_num
  have hclash : clashWith gridC2 [(⟨0, ⟨1/2, 1/2, 1/2⟩⟩ : Atom)] 0 ⟨1/2, 1/2, 1/2⟩ = true := by
    simp only [clashWith, List.any_cons, List.any_nil, Bool.or_false]
    rw [hd0, hg00]
    exact decide_eq_true (by norm_num)
  have htp : tryPlace gridC2 [(⟨0, ⟨1/2, 1/2, 1/2⟩⟩ : Atom)] 0 (rdBad.candPos 1) = none :=
    (tryPlace_none_iff _ _ _ _).mpr (fun t _ => hclash)
  have hpg : placeGo gridC2 rdBad.candPos [0, 0] 0 [] = none := by
    show (match tryPlace gridC2 [] 0 (rdBad.candPos 0) with
      | none => none
      | some pos => placeGo gridC2 rdBad.candPos [0] 1 ([] ++ [(⟨0, pos⟩ : Atom)])) = none
    rw [show tryPlace gridC2 [] 0 (rdBad.candPos 0) = some ⟨1/2, 1/2, 1/2⟩ from rfl]
    show (match tryPlace gridC2 [(⟨0, ⟨1/2, 1/2, 1/2⟩⟩ : Atom)] 0 (rdBad.candPos 1) with
      | none => none
      | some pos => placeGo gridC2 rdBad.candPos [] 2
          ([(⟨0, ⟨1/2, 1/2, 1/2⟩⟩ : Atom)] ++ [(⟨0, pos⟩ : Atom)])) = none
    rw [htp]
  have hnone : Cluster.new_random pX7.atom_counts pX7.box_size gridC2 rdBad = none := by
    simp only [Cluster.new_random]
    rw [show rdBad.shuffle (buildMultiset pX7.atom_counts) = [0, 0] from rfl, hpg]
  have hreg : generate_initial_population pX7 gridC2 oX7.initDraws = [] := by
    rw [generate_initial_population]
    refine initPopGo_all_none pX7.atom_counts pX7.box_size gridC2 pX7.population_size
      (by decide) _ ?_
    intro rd hm
    rw [List.mem_map] at hm
    obtain ⟨k, _, hk⟩ := hm
    rw [← hk]
    exact hnone
  have himp : decide ((([] : List Cluster).head?.bind Cluster.energy).getD f64MAX <
      stX7.last_global_best_e - 1 / 100000) = false := by
    show decide (f64MAX < -5 - 1 / 100000) = false
    exact decide_eq_false (by norm_num [f64MAX])
  refine ⟨⟨[], stX7.stagnation_counter + 1, stX7.extinction_cooldown,
    stX7.last_global_best_e, stX7.current_mutation_rate, stX7.gen + 1⟩,
    ⟨true, 0, false⟩, ?_, rfl, rfl, by decide⟩
  simp only [genStep]
  rw [show stX7.population = ([] : List Cluster) from rfl,
    if_pos (show (([] : List Cluster).isEmpty = true) from rfl),
    show ([] : List Cluster).take pX7.elitism_count = [] from rfl]
  dsimp only
  rw [show (deduplicate_population (fingerprintPass oX7.fingerprint
      (evalBatch oX7.evalMain ([] : List Cluster)))).1 = ([] : List Cluster) from rfl,
    if_pos (show (([] : List Cluster).isEmpty = true) from rfl)]
  dsimp only
  rw [hreg,
    show evalBatch oX7.evalCollapse ([] : List Cluster) = [] from rfl,
    show rank_population ([] : List Cluster) = [] from rfl, himp]
  rfl
